import Mathlib

/-!
Verification development for the dutysavingcopilot HTS-classification engine.

The Python source is embedded shallowly:
* Python `str` values are modelled as `List Char` (`Str`);
* Python `float` values are modelled as `ℚ` (all the arithmetic the claims
  touch is exact decimal arithmetic: thresholds, min-max normalization,
  convex fusion, `math.isclose` with `rel_tol = 1e-9`, `abs_tol = 0.0`);
* fallible calls (the embedding provider) are modelled as `Option`/flag
  arguments at the call boundary, matching the `try/except` shape of the
  source;
* the SQLAlchemy tables touched by ingestion are modelled as explicit
  record lists threaded through the functions.

Each section names the Python definition (file and function) it embeds.
-/

namespace DutySaving

/-- Python strings are modelled as lists of characters. -/
abbrev Str := List Char

/-- Shorthand turning a Lean string literal into the model representation. -/
def str (s : String) : Str := s.toList

/-- The characters removed by Python's default `str.strip()` (ASCII whitespace;
the inputs exercised here are ASCII). -/
def isPySpace (c : Char) : Bool :=
  c = ' ' || c = '\t' || c = '\n' || c = '\r' || c = '\x0b' || c = '\x0c'

/-- Python `s.strip()`. -/
def pyStrip (s : Str) : Str :=
  ((s.dropWhile isPySpace).reverse.dropWhile isPySpace).reverse

/-- Python `s.split(" ")`: split on every single space, preserving empty
pieces (`"".split(" ") == [""]`). -/
def splitOnSpace : Str → List Str
  | [] => [[]]
  | c :: rest =>
    if c = ' ' then [] :: splitOnSpace rest
    else
      match splitOnSpace rest with
      | w :: ws => (c :: w) :: ws
      | [] => [[c]]

/-- Python `" ".join(parts)`. -/
def joinSpace (parts : List Str) : Str := List.intercalate (str " ") parts

/-- Python truthiness-based `a or b` on optional strings: `None` and the
empty string both fall through to the right operand. -/
def pyOrStr (a b : Option Str) : Option Str :=
  match a with
  | some s => if s.isEmpty then b else some s
  | none => b

/-- `\w` for the ASCII inputs in scope: letters, digits, underscore. -/
def isWordChar (c : Char) : Bool := c.isAlphanum || c = '_'

/-- Does `s` begin with `\d{4}\.\d{2}\b` (four digits, a dot, two digits,
followed by end-of-string or a non-word character)? -/
def htsMatchHere (s : Str) : Bool :=
  match s with
  | a :: b :: c :: d :: dot :: e :: f :: rest =>
    a.isDigit && b.isDigit && c.isDigit && d.isDigit && dot = '.' &&
    e.isDigit && f.isDigit &&
    (match rest with
     | [] => true
     | g :: _ => !isWordChar g)
  | _ => false

/-- Leftmost match of the regex `\b\d{4}\.\d{2}\b` (`_HTS_RE.search` in
`app/api/routes/classify.py`): scan left to right, requiring a word
boundary before the first digit. `prevWord` records whether the previous
character was a word character. -/
def htsSearchFrom (prevWord : Bool) : Str → Option Str
  | [] => none
  | c :: rest =>
    if !prevWord && htsMatchHere (c :: rest) then some ((c :: rest).take 7)
    else htsSearchFrom (isWordChar c) rest

/-- `_find_hts_code` applied to a string value (`app/api/routes/classify.py`):
the first `\b\d{4}\.\d{2}\b` match, if any. -/
def findHtsCode (s : Str) : Option Str := htsSearchFrom false s

-- ======================= app/api/routes/classify.py =======================

/-- One evidence reference of a candidate (`Evidence` in `app/api/schemas.py`;
built by `_mk_evidence`). -/
structure Evidence where
  source : Str
  id : Str
  url : Option Str
deriving Repr, DecidableEq

/-- One candidate code dict as assembled by the route
(`CodeCandidate` in `app/api/schemas.py`). -/
structure Candidate where
  code : Str
  description : Str
  dutyRate : Option Str
  rationale : Str
  confidence : ℚ
  evidence : List Evidence
deriving Repr, DecidableEq

/-- The outward response shape (`ClassifyResponse` in `app/api/schemas.py`). -/
structure ClassifyResponse where
  disclaimer : Str
  codes : List Candidate
deriving Repr, DecidableEq

/-- `DISCLAIMER` in `app/api/routes/classify.py`. -/
def DISCLAIMER : Str :=
  str "Not legal advice. Verify with a licensed customs broker or counsel."

/-- `_mk_evidence(source, _id, url)`: `None` for a missing or
whitespace-only id, otherwise the stripped id. -/
def mkEvidence (source : Str) (id? : Option Str) (url : Option Str) :
    Option Evidence :=
  match id? with
  | none => none
  | some s =>
    if s.isEmpty then none
    else
      let sid := pyStrip s
      if sid.isEmpty then none else some ⟨source, sid, url⟩

/-- `_has_any_evidence(items)`: true when at least one candidate's evidence
list is non-empty. -/
def hasAnyEvidence (items : List Candidate) : Bool :=
  items.any (fun c => !c.evidence.isEmpty)

/-- `_finalize_response(codes)` with the configured `MIN_SCORE` threshold:
drop candidates below the threshold, and abstain (empty `codes`) when the
survivors are empty or none of them carries evidence. -/
def finalizeResponse (minScore : ℚ) (codes : List Candidate) :
    ClassifyResponse :=
  let filtered := codes.filter (fun c => minScore ≤ c.confidence)
  if filtered.isEmpty || !hasAnyEvidence filtered then ⟨DISCLAIMER, []⟩
  else ⟨DISCLAIMER, filtered⟩

-- ========================= app/rag/retrieval.py ===========================

/-- `math.isclose(a, b)` with the library defaults `rel_tol = 1e-9`,
`abs_tol = 0.0`, as used by `_normalize`. -/
def isclose (a b : ℚ) : Bool :=
  decide (|a - b| ≤ (1/10^9) * max |a| |b|)

/-- Python `min(vals)` on a non-empty list (`0` on `[]`, never reached). -/
def pyMin : List ℚ → ℚ
  | [] => 0
  | v :: rest => rest.foldl min v

/-- Python `max(vals)` on a non-empty list (`0` on `[]`, never reached). -/
def pyMax : List ℚ → ℚ
  | [] => 0
  | v :: rest => rest.foldl max v

/-- `_normalize(scores)`: min-max normalization over the per-query score
set, keyed by position. The returned dict is modelled as an association
list (keys are the distinct `enumerate` indices). -/
def normalizeScores : List (ℕ × ℚ) → List (ℕ × ℚ)
  | [] => []
  | q :: l =>
    let vals := (q :: l).map Prod.snd
    let lo := pyMin vals
    let hi := pyMax vals
    if isclose hi lo then (q :: l).map (fun p => (p.1, 0))
    else (q :: l).map (fun p => (p.1, (p.2 - lo) / (hi - lo)))

/-- `dict.get(idx, 0.0)` on the normalized-score dict. -/
def lookupD (l : List (ℕ × ℚ)) (i : ℕ) : ℚ :=
  ((l.find? (fun p => p.1 == i)).map Prod.snd).getD 0

/-- `clamp_alpha(a)`. -/
def clampAlpha (a : ℚ) : ℚ := max 0 (min 1 a)

/-- `DEFAULT_TOP_K` under default configuration:
`_env_int("TOP_K", 6, lo=1, hi=50) = 6`. -/
def DEFAULT_TOP_K : ℤ := 6

/-- `_safe_top_k(k, max_cap=50)`; `none` models both `None` and a value
`int()` fails on. -/
def safeTopK (k : Option ℤ) (maxCap : ℤ := 50) : ℤ :=
  match k with
  | none => DEFAULT_TOP_K
  | some kk => max 1 (min maxCap kk)

/-- One fused score record `(idx, fused, bm25_norm, vec_norm)` as built in
the combine loop of `retrieve_with_fusion`. -/
abbrev FusedRec := ℕ × ℚ × ℚ × ℚ

/-- The combine loop of `retrieve_with_fusion`: one record per cached chunk
index, fused score `a * v + (1 - a) * b`. -/
def mkFusedRecords (a : ℚ) (bm25Norm vecNorm : List (ℕ × ℚ)) (n : ℕ) :
    List FusedRec :=
  (List.range n).map (fun idx =>
    let b := lookupD bm25Norm idx
    let v := lookupD vecNorm idx
    (idx, a * v + (1 - a) * b, b, v))

/-- The order realized by
`fused.sort(key=lambda t: (t[1], t[2], -t[0]), reverse=True)`:
record `x` precedes (or ties) `y` when its key tuple
`(fused, bm25_norm, -idx)` is lexicographically ≥ that of `y`. Since
distinct records of the pipeline carry distinct `idx`, this total order
has a unique sorted arrangement, so any correct sort (here `mergeSort`)
computes exactly what Python's stable `list.sort` computes. -/
def fusedGe (x y : FusedRec) : Bool :=
  decide (y.2.1 < x.2.1 ∨ (y.2.1 = x.2.1 ∧
    (y.2.2.1 < x.2.2.1 ∨ (y.2.2.1 = x.2.2.1 ∧ x.1 ≤ y.1))))

/-- The full sort of the fused records (`fused.sort(...)`). -/
def sortFused (l : List FusedRec) : List FusedRec := l.mergeSort fusedGe

/-- The sort-then-truncate tail of `retrieve_with_fusion`
(`fused.sort(...)`; `fused = fused[: max(1, k)]` with `k = _safe_top_k(top_k)`). -/
def fusionTopK (a : ℚ) (bm25Norm vecNorm : List (ℕ × ℚ)) (n : ℕ)
    (k : Option ℤ) : List FusedRec :=
  (sortFused (mkFusedRecords a bm25Norm vecNorm n)).take
    (max 1 (safeTopK k)).toNat

/-- `list(enumerate(scores))` for a score function over `n` corpus rows
(BM25 and cosine scores are produced index-aligned, one per row). -/
def enumScores (n : ℕ) (f : ℕ → ℚ) : List (ℕ × ℚ) :=
  (List.range n).map (fun i => (i, f i))

/-- The chunk-index ranking produced by `retrieve_with_fusion` from raw
index-aligned BM25 and vector scores: normalize each set, fuse with the
clamped `alpha`, sort, and read off the indices (truncation aside).
A failed query embedding makes every cosine score exactly `0.0`
(`embed_query` returns the zero vector and `_vector_scores` computes
`M @ 0 / denom = 0` row-wise), i.e. `vec = fun i => 0`. -/
def fusionOrder (alpha : ℚ) (bm vec : ℕ → ℚ) (n : ℕ) : List ℕ :=
  (sortFused (mkFusedRecords (clampAlpha alpha)
    (normalizeScores (enumScores n bm))
    (normalizeScores (enumScores n vec)) n)).map Prod.fst

/-- Modelled from the spec: the "pure-BM25 rank order" — corpus indices
ranked by raw BM25 score descending, ties by index ascending, which is the
tiebreak the engine's own BM25-only path uses
(`bm25_search_hts`: `sorted(enumerate(scores), key=lambda t: (t[1], -t[0]), reverse=True)`). -/
def pureBM25Order (bm : ℕ → ℚ) (n : ℕ) : List ℕ :=
  (List.range n).mergeSort (fun i j =>
    decide (bm j < bm i ∨ (bm j = bm i ∧ i ≤ j)))

/-- `EMBED_DIM_DEFAULT` under default configuration. -/
def EMBED_DIM_DEFAULT : ℕ := 1536

/-- `np.array(c.embedding or [], dtype=np.float32)` on a stored (possibly
absent) embedding. -/
def storedEmbedding (e : Option (List ℚ)) : List ℚ := e.getD []

/-- The per-chunk embedding fixup of `hybrid_search_rulings`: an embedding
whose shape differs from `(dim,)` is replaced by a zero vector whose first
`min dim emb.size` entries are copied from the stored embedding
(zero-padding / truncation). -/
def coerceEmbedding (dim : ℕ) (emb : List ℚ) : List ℚ :=
  if emb.length = dim then emb
  else emb.take (min dim emb.length) ++
    List.replicate (dim - min dim emb.length) 0

/-- `np.dot` on index-aligned vectors. -/
def dotQ (u v : List ℚ) : ℚ :=
  ((u.zip v).map (fun p => p.1 * p.2)).sum

/-- `_cosine(u, v, eps=1e-8)`: numerically-guarded cosine similarity
(`float` arithmetic modelled over the reals for the square roots). -/
noncomputable def cosine (u v : List ℚ) : ℝ :=
  (dotQ u v : ℝ) /
    (Real.sqrt ((dotQ u u : ℚ) : ℝ) * Real.sqrt ((dotQ v v : ℚ) : ℝ) + 1/10^8)

/-- The vector-scoring loop of `hybrid_search_rulings` (lines 283–301):
for each stored chunk embedding, coerce it to the query dimension
(`EMBED_DIM_DEFAULT` if the query vector is empty) and score it; a zero
query vector scores `0.0`. One output pair per input row, index-aligned. -/
noncomputable def vecPairs (qvec : List ℚ) (embs : List (Option (List ℚ))) :
    List (ℕ × ℝ) :=
  let dim := if qvec.length ≠ 0 then qvec.length else EMBED_DIM_DEFAULT
  embs.enum.map (fun p =>
    let emb := coerceEmbedding dim (storedEmbedding p.2)
    (p.1, if qvec.length = 0 then 0 else cosine qvec emb))

/-- Modelled from the spec: the claimed final-ranking tie-break — fused
score descending, then lexical score descending, then insertion/index
order DESCENDING (higher index first on full key ties). -/
def claimedGe (x y : FusedRec) : Bool :=
  decide (y.2.1 < x.2.1 ∨ (y.2.1 = x.2.1 ∧
    (y.2.2.1 < x.2.2.1 ∨ (y.2.2.1 = x.2.2.1 ∧ y.1 ≤ x.1))))

/-- Modelled from the spec: the full sort under the claimed tie-break. -/
def claimedSortFused (l : List FusedRec) : List FusedRec :=
  l.mergeSort claimedGe

/-- Three-component lexicographic "ranks no later than": primary and
secondary keys descending, index ascending. -/
def lexGe (x1 y1 x2 y2 : ℚ) (i j : ℕ) : Prop :=
  y1 < x1 ∨ (y1 = x1 ∧ (y2 < x2 ∨ (y2 = x2 ∧ i ≤ j)))

/-- The index-level rank order induced by two per-index keys (primary and
secondary descending, index ascending on ties). -/
def keyOrder (f g : ℕ → ℚ) (i j : ℕ) : Prop :=
  lexGe (f i) (f j) (g i) (g j) i j

-- ===================== app/utils/tokens.py & chunking =====================

/-- `count_tokens(text)` from `app/utils/tokens.py`: `max(1, len(text)//4)`. -/
def countTokens (s : Str) : ℕ := max 1 (s.length / 4)

/-- The inline cheap token approximation of `chunk_text`:
`max(1, len(w)//4)`. -/
def tokApprox (w : Str) : ℕ := max 1 (w.length / 4)

/-- The overlap-seeding loop of `chunk_text`: walk the words of the flushed
chunk from the end, keeping words until the accumulated approximate token
count reaches `overlap`; phrased with the remaining budget. -/
def keepOverlap (overlap : ℕ) : List Str → List Str
  | [] => []
  | w :: ws =>
    let t := tokApprox w
    if overlap ≤ t then [w] else w :: keepOverlap (overlap - t) ws

/-- Flushing the current word buffer in `chunk_text`:
`ctext = " ".join(cur).strip()`, recorded with `count_tokens(ctext)`. -/
def chunkFlush (cur : List Str) : Str × ℕ :=
  let ctext := pyStrip (joinSpace cur)
  (ctext, countTokens ctext)

/-- The word loop of `chunk_text` (`app/rag/chunking.py`), with the
trailing `if cur:` flush folded into the base case. -/
def chunkLoop (maxTokens overlap : ℕ) :
    List Str → List Str → ℕ → List (Str × ℕ)
  | [], cur, _ => if cur.isEmpty then [] else [chunkFlush cur]
  | w :: ws, cur, curTok =>
    let t := tokApprox w
    if !cur.isEmpty && decide (maxTokens < curTok + t) then
      let flushed := chunkFlush cur
      let keep := (keepOverlap overlap cur.reverse).reverse
      let keepTok := (keep.map tokApprox).sum
      flushed :: chunkLoop maxTokens overlap ws (keep ++ [w]) (keepTok + t)
    else
      chunkLoop maxTokens overlap ws (cur ++ [w]) (curTok + t)

/-- `chunk_text(text, max_tokens, overlap)` from `app/rag/chunking.py`.
It is a structurally terminating walk over `text.split(" ")`: there is no
parameter validation and no failure path for any `overlap`/`max_tokens`
combination. -/
def chunk_text (text : Str) (maxTokens overlap : ℕ) : List (Str × ℕ) :=
  chunkLoop maxTokens overlap (splitOnSpace text) [] 0

/-- `text.replace("﻿", " ").replace("\xa0", " ")`. -/
def replaceBomNbsp (s : Str) : Str :=
  s.map (fun c => if c = '﻿' ∨ c = '\xa0' then ' ' else c)

/-- `re.sub(r"[ \t]+", " ", text)`: collapse runs of spaces/tabs to one
space; `prev` records whether the previous character was in a run. -/
def collapseST (prev : Bool) : Str → Str
  | [] => []
  | c :: rest =>
    if c = ' ' || c = '\t' then
      if prev then collapseST true rest else ' ' :: collapseST true rest
    else c :: collapseST false rest

/-- `re.sub(r"\n{3,}", "\n\n", text)`: a run of three or more newlines
becomes exactly two (shorter runs are unchanged), i.e. emit only the first
two newlines of each run; `cnt` counts the newlines of the current run. -/
def collapseNL (cnt : ℕ) : Str → Str
  | [] => []
  | c :: rest =>
    if c = '\n' then
      if cnt < 2 then '\n' :: collapseNL (cnt + 1) rest
      else collapseNL cnt rest
    else c :: collapseNL 0 rest

/-- `normalize_text(text)` from `app/rag/chunking.py`. -/
def normalize_text (s : Str) : Str :=
  pyStrip (collapseNL 0 (collapseST false (replaceBomNbsp s)))

-- =========================== app/ingest/hts.py ============================

/-- A `source_documents` row (the columns `_upsert_one_item` touches). -/
structure SourceDocRow where
  id : ℕ
  sourceType : Str
  externalId : Str
  title : Str
  version : ℕ
deriving DecidableEq

/-- A `chunks` row. `make_chunk_id(source_id, version, page, idx)` formats
`"src:{source_id}:v{version}:p{page}:c{idx}"`, injective in its four
arguments, so the id is modelled as the quadruple itself. -/
structure ChunkRow where
  sourceId : ℕ
  chunkId : ℕ × ℕ × ℕ × ℕ
  text : Str
  page : ℕ
  idx : ℕ
  tokens : ℕ
deriving DecidableEq

/-- The database state threaded through `_upsert_one_item`; `nextDocId`
models the autoincrement primary key. -/
structure IngestDb where
  nextDocId : ℕ
  docs : List SourceDocRow
  chunks : List ChunkRow
deriving DecidableEq

/-- The payload dict `{"code", "title", "text"}` passed to
`_upsert_one_item`. -/
structure HtsPayload where
  code : Option Str
  title : Option Str
  text : Option Str

/-- `_upsert_one_item(session, payload, max_tokens, overlap, do_embed)`
from `app/ingest/hts.py` (the embedding attach step touches no rows and is
omitted). It always inserts a fresh `SourceDocument` whose version is one
more than the latest version stored under `("hts", code)` (or `1`), plus
one `Chunk` row per chunk of the normalized text. -/
def upsertOneItem (db : IngestDb) (p : HtsPayload) (maxTokens overlap : ℕ) :
    IngestDb × Str × ℕ :=
  let code := (pyOrStr p.code (some (str "UNKNOWN"))).getD []
  let title := (pyOrStr p.title (some code)).getD []
  let text := normalize_text (p.text.getD [])
  let parts := chunk_text text maxTokens overlap
  let prev := db.docs.filter
    (fun d => decide (d.sourceType = str "hts" ∧ d.externalId = code))
  let version :=
    if prev.isEmpty then 1 else (prev.map (fun d => d.version)).foldl max 0 + 1
  let src : SourceDocRow := ⟨db.nextDocId, str "hts", code, title, version⟩
  let newChunks := parts.enum.map (fun q =>
    (⟨db.nextDocId, (db.nextDocId, version, 0, q.1), q.2.1, 0, q.1, q.2.2⟩ :
      ChunkRow))
  (⟨db.nextDocId + 1, db.docs ++ [src], db.chunks ++ newChunks⟩,
    code, newChunks.length)

-- ======================== app/ingest/load_htsus.py ========================

/-- `_doc_id_for(ch, heading, edition)` formats
`"htsus:{ch}:{heading}[@{edition}]"`, injective in its arguments, so it is
modelled as the triple. -/
structure HtsDocId where
  chapter : ℕ
  heading : Str
  edition : Option Str
deriving DecidableEq

/-- `_chunk_id(doc_id, section_idx, offset)` formats
`"{doc_id}#s{section_idx}-o{offset:06d}"`, injective for the offsets in
range, modelled as the triple. -/
structure HtsChunkId where
  docId : HtsDocId
  sectionIdx : ℕ
  offset : ℕ
deriving DecidableEq

/-- The `while i < n` loop of `_deterministic_chunks(text, window, overlap)`,
bounded by explicit fuel (for `overlap < window` the index advances by at
least `window - overlap ≥ 1` per step, so `text.length + 1` iterations
always suffice; for `overlap ≥ window` the Python loop does not advance —
see the chunker claims). Yields `(section_idx, offset, chunk_text)`. -/
def detChunksGo (window overlap : ℕ) (text : Str) :
    ℕ → ℕ → ℕ → List (ℕ × ℕ × Str)
  | 0, _, _ => []
  | fuel + 1, i, sec =>
    let n := text.length
    if i < n then
      let j := min (i + window) n
      (sec, i, (text.drop i).take (j - i)) ::
        (if j = n then [] else detChunksGo window overlap text fuel (j - overlap) (sec + 1))
    else []

/-- `_deterministic_chunks(text, window=800, overlap=120)`. -/
def deterministicChunks (text : Str) (window : ℕ := 800)
    (overlap : ℕ := 120) : List (ℕ × ℕ × Str) :=
  detChunksGo window overlap text (text.length + 1) 0 0

/-- The dev sink state of `load_htsus`: which doc files exist
(file name = sha256 of the doc id, injective, modelled by the id) and
which chunk ids are already present in the chunk file. -/
structure DevDb where
  docIds : List HtsDocId
  chunkIds : List HtsChunkId
deriving DecidableEq

/-- The per-document body of `load_htsus`: write the doc file only if
absent; append exactly the generated chunk records whose id is not in the
pre-existing set; return the new state with the `docs`/`chunks` counters. -/
def loadOneDoc (db : DevDb) (d : HtsDocId) (text : Str) : DevDb × ℕ × ℕ :=
  let docsAdded := if d ∈ db.docIds then 0 else 1
  let docIds2 := if d ∈ db.docIds then db.docIds else db.docIds ++ [d]
  let newIds := (deterministicChunks text).filterMap (fun t =>
    let cid : HtsChunkId := ⟨d, t.1, t.2.1⟩
    if cid ∈ db.chunkIds then none else some cid)
  (⟨docIds2, db.chunkIds ++ newIds⟩, docsAdded, newIds.length)

-- ================== app/api/routes/classify.py (route) ====================

/-- A hydrated retrieval hit as consumed by the route: the dict produced by
`_hydrate_hits_with_meta` carries `code`, `anchor`, `snippet`, `score` (in
that insertion order); `text`, `id` and `expected_code` cover the other
keys the route's helpers probe. -/
structure Hit where
  code : Option Str
  anchor : Option Str
  snippet : Option Str
  score : ℚ
  text : Option Str
  id : Option Str
  expectedCode : Option Str
deriving DecidableEq

/-- `_find_hts_code` over one optional string field. -/
def findIn (o : Option Str) : Option Str := o.bind findHtsCode

/-- `_extract_code_from_hit(h)`: probe the direct keys in source order
`("code", "anchor", "snippet", "text", "expected_code")`, then fall back to
the recursive scan of all dict values in insertion order — whose only
additional string value is `h["id"]` (a numeric `score` in `[0, 1]`
stringifies without four digits before the dot, so it can never match
`\b\d{4}\.\d{2}\b`). -/
def extractCodeFromHit (h : Hit) : Option Str :=
  findIn h.code <|> findIn h.anchor <|> findIn h.snippet <|>
    findIn h.text <|> findIn h.expectedCode <|> findIn h.id

/-- Python `s.rsplit(" ", 1)[0]`: everything before the last space, or the
whole string when it contains no space. -/
def rsplitBeforeLastSpace (s : Str) : Str :=
  if ' ' ∈ s then ((s.reverse.dropWhile (fun c => c ≠ ' ')).drop 1).reverse
  else s

/-- The description truncation of `_fallback_from_hits`:
`snippet[:140].rsplit(" ", 1)[0] + "…" if len(snippet) > 140 else snippet`. -/
def truncateDesc (snippet : Str) : Str :=
  if 140 < snippet.length then
    rsplitBeforeLastSpace (snippet.take 140) ++ str "…"
  else snippet

/-- One synthesized candidate of `_fallback_from_hits` for a hit `h` whose
extracted code is `code`. -/
def fallbackCandidate (h : Hit) (code : Str) : Candidate :=
  let snippet := pyStrip ((pyOrStr (pyOrStr h.snippet h.text)
    (some (str "HTS reference for code " ++ code ++ str "."))).getD [])
  let desc := truncateDesc snippet
  let ev := match mkEvidence (str "HTS") (pyOrStr h.anchor h.id) none with
    | some e => [e]
    | none => []
  { code := code
    description := desc
    dutyRate := none
    rationale := str "Matched HTS excerpt for code " ++ code ++ str "."
    confidence := 2/5
    evidence := if ev.isEmpty then [⟨str "HTS", str "stub", none⟩] else ev }

/-- The forced stub of `_fallback_from_hits` (test/mock mode only). -/
def stubCandidate : Candidate :=
  ⟨str "8504.40", str "Stub from fallback (test/mock)", none,
   str "Synthetic prediction for test/offline mock.", 2/5,
   [⟨str "HTS", str "stub", none⟩]⟩

/-- The hit loop of `_fallback_from_hits`: skip hits without a fresh
resolvable code, emit a candidate per new code, stop once `max_codes`
candidates exist. `cnt` is the number of candidates emitted so far. -/
def fallbackGo (maxCodes : ℕ) : List Hit → List Str → ℕ → List Candidate
  | [], _, _ => []
  | h :: rest, seen, cnt =>
    match extractCodeFromHit h with
    | none => fallbackGo maxCodes rest seen cnt
    | some code =>
      if code.isEmpty || decide (code ∈ seen) then
        fallbackGo maxCodes rest seen cnt
      else
        let cand := fallbackCandidate h code
        if maxCodes ≤ cnt + 1 then [cand]
        else cand :: fallbackGo maxCodes rest (code :: seen) (cnt + 1)

/-- `_fallback_from_hits(hits, max_codes=2)`; `testOrMock` models
`_is_test() or os.getenv("OPENAI_API_MOCK") == "1"`. -/
def fallbackFromHits (testOrMock : Bool) (hits : List Hit)
    (maxCodes : ℕ := 2) : List Candidate :=
  let out := fallbackGo maxCodes hits [] 0
  if out.isEmpty && testOrMock then [stubCandidate] else out

/-- Association lookup on the `code2max` dict. -/
def lookupStr (m : List (Str × ℚ)) (c : Str) : Option ℚ :=
  (m.find? (fun p => decide (p.1 = c))).map Prod.snd

/-- In-place dict value update (keys are unique by construction). -/
def setAssoc (m : List (Str × ℚ)) (c : Str) (s : ℚ) : List (Str × ℚ) :=
  m.map (fun p => if p.1 = c then (c, s) else p)

/-- The `code2max` accumulation loop of `classify`: best retrieval score
per non-empty stripped hit code. -/
def code2maxFold (hits : List Hit) : List (Str × ℚ) :=
  hits.foldl (fun m h =>
    let c := pyStrip ((pyOrStr h.code (some [])).getD [])
    if c.isEmpty then m
    else
      match lookupStr m c with
      | none => m ++ [(c, h.score)]
      | some old => if old < h.score then setAssoc m c h.score else m) []

/-- `_bump(conf, rank_idx)`: rank-based confidence floors 0.55 / 0.45. -/
def bump (conf : ℚ) (rankIdx : ℕ) : ℚ :=
  if rankIdx = 0 then max conf (11/20)
  else if rankIdx = 1 then max conf (9/20)
  else conf

/-- The support key used to sort candidates before bumping. -/
def supportOf (m : List (Str × ℚ)) (c : Candidate) : ℚ :=
  (lookupStr m (pyStrip c.code)).getD 0

/-- `sorted(out_codes, key=support, reverse=True)` — a stable descending
sort by retrieval support. -/
def sortBySupport (m : List (Str × ℚ)) (codes : List Candidate) :
    List Candidate :=
  codes.mergeSort (fun x y => decide (supportOf m y ≤ supportOf m x))

/-- The bump loop of `classify`: candidates whose code has positive
retrieval support get the rank-based floor. -/
def applyBumps (m : List (Str × ℚ)) (l : List Candidate) : List Candidate :=
  l.enum.map (fun p =>
    let code := pyStrip p.2.code
    match lookupStr m code with
    | some s => if 0 < s then { p.2 with confidence := bump p.2.confidence p.1 } else p.2
    | none => p.2)

/-- The empty-query stub of `classify` (test/mock mode), confidence
`float(os.getenv("MIN_SCORE", "0.40"))`. -/
def emptyQueryStub (minScore : ℚ) : Candidate :=
  ⟨str "8504.40", str "Stub: power supplies / adapters (test/mock)", none,
   str "Provided for contract/CI when empty query in mock mode.", minScore,
   [⟨str "HTS", str "stub", none⟩]⟩

/-- A run of the `classify` route together with which external stages it
invoked. -/
structure ClassifyTrace where
  response : ClassifyResponse
  retrievalCalled : Bool
  llmCalled : Bool
deriving DecidableEq

/-- The route's environment: test/mock flags, configuration, and the two
external stages as oracles — `retrieval` is `retrieve_context`/
`retrieve_with_fusion`, and `llm` is `run_llm_classify` composed with the
route's JSON→schema mapping loop, so it yields the mapped `out_codes`
(empty iff the model returned zero structured candidates). -/
structure ClassifyEnv where
  isTest : Bool
  mockMode : Bool
  minScore : ℚ
  abstainOnNoEvidence : Bool
  retrieval : Str → ℤ → List Hit
  llm : Str → List Hit → List Candidate

/-- The `classify` route body (`app/api/routes/classify.py` lines 224–365)
for an already-parsed request: strip the query; empty queries short-circuit
before retrieval and the LLM; then retrieval, the test-stub and
abstain-on-no-evidence guards, fallback synthesis when the reasoning step
returned zero candidates, support-sorting, bumps, and finalization. -/
def classify (env : ClassifyEnv) (rawQuery : Str) (topK : ℤ) : ClassifyTrace :=
  let query := pyStrip rawQuery
  if query.isEmpty then
    if env.isTest || env.mockMode then
      ⟨finalizeResponse env.minScore [emptyQueryStub env.minScore], false, false⟩
    else ⟨⟨DISCLAIMER, []⟩, false, false⟩
  else
    let hits := env.retrieval query topK
    if hits.isEmpty && env.isTest then
      ⟨finalizeResponse env.minScore (fallbackFromHits true []), true, false⟩
    else if env.abstainOnNoEvidence && hits.isEmpty then
      ⟨finalizeResponse env.minScore [], true, false⟩
    else
      let outCodes := env.llm query hits
      let outCodes2 :=
        if outCodes.isEmpty then
          fallbackFromHits (env.isTest || env.mockMode) hits
        else outCodes
      let m := code2maxFold hits
      ⟨finalizeResponse env.minScore (applyBumps m (sortBySupport m outCodes2)),
        true, true⟩

-- ============================ Claim C1 ====================================

/-- C1 counterexample: the claim "every element of a non-empty `codes` output
has a non-empty `evidence` list" is false. `_finalize_response` checks only
that SOME surviving candidate has evidence (`_has_any_evidence` is an
`any`, not an `all`): with one evidenced and one unevidenced candidate,
both above the threshold, both are returned, and the second carries an
empty evidence list. -/
theorem C1_counterexample :
    (finalizeResponse (2/5)
        [⟨str "8504.40", str "d", none, str "r", 9/10,
            [⟨str "HTS", str "HTS:8504.40", none⟩]⟩,
         ⟨str "8536.69", str "d", none, str "r", 9/10, []⟩]).codes =
      [⟨str "8504.40", str "d", none, str "r", 9/10,
          [⟨str "HTS", str "HTS:8504.40", none⟩]⟩,
       ⟨str "8536.69", str "d", none, str "r", 9/10, []⟩] ∧
    (⟨str "8536.69", str "d", none, str "r", (9:ℚ)/10, []⟩ :
        Candidate).evidence = [] := by
  refine ⟨?_, rfl⟩
  have h : ((2:ℚ)/5 ≤ 9/10) := by norm_num
  simp [finalizeResponse, hasAnyEvidence, h]

/-- C1 (amended): for every input candidate list, the finalizer's output
either has an empty `codes` list, or every element of `codes` has
confidence ≥ the configured minimum threshold and AT LEAST ONE element of
`codes` has a non-empty evidence list (the evidence requirement is
existential across the surviving list, not universal per element). -/
theorem C1_finalize_gate (minScore : ℚ) (codes : List Candidate) :
    (finalizeResponse minScore codes).codes = [] ∨
    ((∀ c ∈ (finalizeResponse minScore codes).codes, minScore ≤ c.confidence) ∧
     ∃ c ∈ (finalizeResponse minScore codes).codes, c.evidence ≠ []) := by
  by_cases hb : ((codes.filter (fun c => decide (minScore ≤ c.confidence))).isEmpty
      || !hasAnyEvidence (codes.filter (fun c => decide (minScore ≤ c.confidence)))) = true
  · left
    simp only [finalizeResponse]
    rw [if_pos hb]
  · right
    have hres : (finalizeResponse minScore codes).codes
        = codes.filter (fun c => decide (minScore ≤ c.confidence)) := by
      simp only [finalizeResponse]
      rw [if_neg hb]
    rw [Bool.or_eq_true, not_or] at hb
    obtain ⟨-, hev⟩ := hb
    have hev2 : hasAnyEvidence
        (codes.filter (fun c => decide (minScore ≤ c.confidence))) = true := by
      by_contra hcon
      rw [Bool.not_eq_true] at hcon
      exact hev (by rw [hcon]; rfl)
    constructor
    · intro c hc
      rw [hres] at hc
      exact of_decide_eq_true (List.mem_filter.mp hc).2
    · rw [hasAnyEvidence, List.any_eq_true] at hev2
      obtain ⟨c, hc, h2⟩ := hev2
      exact ⟨c, by rw [hres]; exact hc, by simpa using h2⟩

-- ============================ Claim C3 ====================================

/-- C3: `chunk_text` has no parameter validation and no failure path: with
`overlap = 5 ≥ max_tokens = 2` it terminates and produces ordinary
(heavily overlapping) output instead of raising a `ConfigurationError` —
no such error class exists anywhere in the repository. -/
theorem C3_chunker_accepts_overlap_ge_window :
    chunk_text (str "aaaa bbbb cccc dddd") 2 5 =
      [(str "aaaa bbbb", 2), (str "aaaa bbbb cccc", 3),
       (str "aaaa bbbb cccc dddd", 4)] ∧
    chunk_text (str "aaaa bbbb cccc dddd") 2 5 ≠ [] := by
  constructor
  · decide
  · decide

-- ============================ Claim C2 ====================================

/-- C2 counterexample: re-ingesting the identical payload through
`_upsert_one_item` with identical chunking parameters does NOT create zero
new rows — the second pass inserts a second `SourceDocument` row (version
2) and a second copy of the chunk rows. -/
theorem C2_counterexample :
    ((upsertOneItem ⟨1, [], []⟩
        ⟨some (str "8504.40"), some (str "T"), some (str "hello world")⟩
        512 64).1.docs.length = 1) ∧
    ((upsertOneItem ⟨1, [], []⟩
        ⟨some (str "8504.40"), some (str "T"), some (str "hello world")⟩
        512 64).1.chunks.length = 1) ∧
    ((upsertOneItem (upsertOneItem ⟨1, [], []⟩
        ⟨some (str "8504.40"), some (str "T"), some (str "hello world")⟩
        512 64).1
        ⟨some (str "8504.40"), some (str "T"), some (str "hello world")⟩
        512 64).1.docs.length = 2) ∧
    ((upsertOneItem (upsertOneItem ⟨1, [], []⟩
        ⟨some (str "8504.40"), some (str "T"), some (str "hello world")⟩
        512 64).1
        ⟨some (str "8504.40"), some (str "T"), some (str "hello world")⟩
        512 64).1.chunks.length = 2) ∧
    ((upsertOneItem (upsertOneItem ⟨1, [], []⟩
        ⟨some (str "8504.40"), some (str "T"), some (str "hello world")⟩
        512 64).1
        ⟨some (str "8504.40"), some (str "T"), some (str "hello world")⟩
        512 64).1.docs.map (fun d => d.version) = [1, 2]) := by
  refine ⟨?_, ?_, ?_, ?_, ?_⟩ <;> decide

/-- Helper: after `loadOneDoc`, the doc id is recorded. -/
theorem loadOneDoc_docId_mem (db : DevDb) (d : HtsDocId) (text : Str) :
    d ∈ (loadOneDoc db d text).1.docIds := by
  simp only [loadOneDoc]
  by_cases h : d ∈ db.docIds
  · simp [h]
  · simp [h]

/-- Helper: after `loadOneDoc`, every generated chunk id is recorded. -/
theorem loadOneDoc_chunkId_mem (db : DevDb) (d : HtsDocId) (text : Str)
    {t : ℕ × ℕ × Str} (ht : t ∈ deterministicChunks text) :
    (⟨d, t.1, t.2.1⟩ : HtsChunkId) ∈ (loadOneDoc db d text).1.chunkIds := by
  simp only [loadOneDoc]
  by_cases h : (⟨d, t.1, t.2.1⟩ : HtsChunkId) ∈ db.chunkIds
  · exact List.mem_append_left _ h
  · exact List.mem_append_right _
      (List.mem_filterMap.mpr ⟨t, ht, by simp [h]⟩)

/-- C2 (amended): the two ingestion paths behave differently on a re-run.
The `load_htsus` dev sink is idempotent: re-loading the same document with
the same parameters adds zero new doc files and zero new chunk records and
leaves the state unchanged. The `_upsert_one_item` path is NOT: every
call, including a re-ingestion of identical content under the same
identifier, inserts exactly one new document row (with an incremented
version) and one chunk row per chunk of the normalized text. -/
theorem C2_second_pass_behavior :
    (∀ (db : DevDb) (d : HtsDocId) (text : Str),
      loadOneDoc (loadOneDoc db d text).1 d text =
        ((loadOneDoc db d text).1, 0, 0)) ∧
    (∀ (db : IngestDb) (p : HtsPayload) (mt ov : ℕ),
      (upsertOneItem db p mt ov).1.docs.length = db.docs.length + 1 ∧
      (upsertOneItem db p mt ov).1.chunks.length =
        db.chunks.length +
          (chunk_text (normalize_text (p.text.getD [])) mt ov).length) := by
  constructor
  · intro db d text
    have hd : d ∈ (loadOneDoc db d text).1.docIds :=
      loadOneDoc_docId_mem db d text
    have hnone : ∀ t ∈ deterministicChunks text,
        (fun t : ℕ × ℕ × Str =>
          if (⟨d, t.1, t.2.1⟩ : HtsChunkId) ∈ (loadOneDoc db d text).1.chunkIds
          then none else some (⟨d, t.1, t.2.1⟩ : HtsChunkId)) t = none := by
      intro t ht
      simp [loadOneDoc_chunkId_mem db d text ht]
    conv_lhs => rw [loadOneDoc]
    rw [if_pos hd, if_pos hd, List.filterMap_eq_nil_iff.mpr hnone]
    simp
  · intro db p mt ov
    constructor
    · simp [upsertOneItem]
    · simp [upsertOneItem]

-- ============================ Claim C9 ====================================

/-- C9: for every classify request whose (parsed) query strips to the empty
string, outside test and mock mode, the route returns the abstain response
— the fixed non-empty disclaimer with an empty codes list — immediately,
invoking neither the retrieval stage nor the language model, whatever
those stages would return. -/
theorem C9_empty_query_abstains (env : ClassifyEnv) (rawQuery : Str)
    (topK : ℤ) (hq : (pyStrip rawQuery).isEmpty = true)
    (ht : env.isTest = false) (hm : env.mockMode = false) :
    classify env rawQuery topK = ⟨⟨DISCLAIMER, []⟩, false, false⟩ ∧
    DISCLAIMER ≠ [] := by
  refine ⟨?_, by decide⟩
  simp [classify, hq, ht, hm]

/-- C9 witness: a whitespace-only query in production mode, with oracles
that would be observable if invoked. -/
theorem C9_witness :
    (pyStrip (str "   ")).isEmpty = true ∧
    classify ⟨false, false, 2/5, true,
        fun _ _ => [⟨some (str "8504.40"), none, none, 0, none, none, none⟩],
        fun _ _ => [⟨str "8504.40", str "d", none, str "r", 1,
          [⟨str "HTS", str "x", none⟩]⟩]⟩
      (str "   ") 6 = ⟨⟨DISCLAIMER, []⟩, false, false⟩ :=
  ⟨by decide,
    (C9_empty_query_abstains ⟨false, false, 2/5, true,
        fun _ _ => [⟨some (str "8504.40"), none, none, 0, none, none, none⟩],
        fun _ _ => [⟨str "8504.40", str "d", none, str "r", 1,
          [⟨str "HTS", str "x", none⟩]⟩]⟩
      (str "   ") 6 (by decide) rfl rfl).1⟩

-- ============================ Claim C4 ====================================

/-- C4 counterexample: a stored embedding with the wrong dimension is NOT
coerced to a zero vector — `hybrid_search_rulings` zero-pads/truncates it,
preserving the stored prefix: `[5]` against query dimension 2 becomes
`[5, 0]`, not `[0, 0]`. -/
theorem C4_counterexample :
    coerceEmbedding 2 [5] = [5, 0] ∧
    coerceEmbedding 2 [5] ≠ List.replicate 2 (0 : ℚ) := by
  constructor
  · norm_num [coerceEmbedding]
  · norm_num [coerceEmbedding, List.replicate]

/-- C4 (amended): an absent embedding is coerced to the zero vector of the
query dimension; a wrong-dimension embedding is zero-padded or truncated
to the query dimension with its prefix preserved; the coercion always
returns a vector of exactly the query dimension, and the scoring loop
never raises and keeps one score per chunk row, index-aligned, so score
indices stay aligned with the chunk list. -/
theorem C4_embedding_coercion :
    (∀ dim : ℕ, coerceEmbedding dim [] = List.replicate dim 0) ∧
    (∀ (dim : ℕ) (emb : List ℚ), (coerceEmbedding dim emb).length = dim) ∧
    (∀ (dim : ℕ) (emb : List ℚ), emb.length ≠ dim →
      coerceEmbedding dim emb =
        emb.take (min dim emb.length) ++
          List.replicate (dim - min dim emb.length) 0) ∧
    (∀ (qvec : List ℚ) (embs : List (Option (List ℚ))),
      (vecPairs qvec embs).length = embs.length ∧
      (vecPairs qvec embs).map Prod.fst = List.range embs.length) := by
  refine ⟨?_, ?_, ?_, ?_⟩
  · intro dim
    cases dim with
    | zero => simp [coerceEmbedding]
    | succ d => simp [coerceEmbedding]
  · intro dim emb
    by_cases h : emb.length = dim
    · simp [coerceEmbedding, h]
    · simp only [coerceEmbedding, if_neg h, List.length_append,
        List.length_take, List.length_replicate]
      omega
  · intro dim emb h
    simp [coerceEmbedding, h]
  · intro qvec embs
    constructor
    · simp [vecPairs]
    · simp only [vecPairs, List.map_map]
      have : (Prod.fst ∘ fun p : ℕ × Option (List ℚ) =>
          ((p.1 : ℕ), if qvec.length = 0 then (0 : ℝ)
            else cosine qvec (coerceEmbedding
              (if qvec.length ≠ 0 then qvec.length else EMBED_DIM_DEFAULT)
              (storedEmbedding p.2)))) = Prod.fst := rfl
      rw [this, List.enum_map_fst]

/-- C4 witness: the amended statement instantiated at an absent embedding,
a wrong-dimension embedding, and a two-row chunk list. -/
theorem C4_witness :
    coerceEmbedding 3 [] = List.replicate 3 0 ∧
    (coerceEmbedding 3 [1, 2]).length = 3 ∧
    (([1, 2] : List ℚ).length ≠ 3 ∧
      coerceEmbedding 3 [1, 2] =
        ([1, 2] : List ℚ).take (min 3 ([1, 2] : List ℚ).length) ++
          List.replicate (3 - min 3 ([1, 2] : List ℚ).length) 0) ∧
    (vecPairs [1] [none, some [7]]).map Prod.fst =
      List.range ([none, some [7]] : List (Option (List ℚ))).length :=
  ⟨C4_embedding_coercion.1 3,
   C4_embedding_coercion.2.1 3 [1, 2],
   ⟨by norm_num, C4_embedding_coercion.2.2.1 3 [1, 2] (by norm_num)⟩,
   (C4_embedding_coercion.2.2.2 [1] [none, some [7]]).2⟩

-- ============================ Claim C10 ===================================

/-- Helper: every candidate the fallback loop emits is a
`fallbackCandidate`, whose confidence is the hard-coded `0.40`. -/
theorem fallbackGo_confidence (mc : ℕ) :
    ∀ (hits : List Hit) (seen : List Str) (cnt : ℕ),
      ∀ c ∈ fallbackGo mc hits seen cnt, c.confidence = 2/5 := by
  intro hits
  induction hits with
  | nil => intro seen cnt c hc; simp [fallbackGo] at hc
  | cons h rest ih =>
    intro seen cnt c hc
    rw [fallbackGo] at hc
    rcases hx : extractCodeFromHit h with _ | code
    · rw [hx] at hc
      exact ih seen cnt c hc
    · rw [hx] at hc
      dsimp only at hc
      by_cases hskip : code.isEmpty || decide (code ∈ seen)
      · rw [if_pos hskip] at hc
        exact ih seen cnt c hc
      · rw [if_neg hskip] at hc
        by_cases hbreak : mc ≤ cnt + 1
        · rw [if_pos hbreak] at hc
          rcases List.mem_singleton.mp hc with rfl
          rfl
        · rw [if_neg hbreak] at hc
          rcases List.mem_cons.mp hc with rfl | hmem
          · rfl
          · exact ih (code :: seen) (cnt + 1) c hmem

/-- C10: fallback-synthesized candidates always carry confidence exactly
0.40 — `_fallback_from_hits` hard-codes `0.40` and never reads the
configured `MIN_SCORE` — and for every threshold strictly above 0.40, a
candidate list whose confidences are all 0.40 (i.e. fallback candidates
that received no retrieval-support bump) is entirely removed by the final
filter, so the response abstains. -/
theorem C10_fallback_below_raised_threshold :
    (∀ (tm : Bool) (hits : List Hit) (mc : ℕ),
      ∀ c ∈ fallbackFromHits tm hits mc, c.confidence = 2/5) ∧
    (∀ (t : ℚ) (cands : List Candidate), 2/5 < t →
      (∀ c ∈ cands, c.confidence = 2/5) →
      finalizeResponse t cands = ⟨DISCLAIMER, []⟩) := by
  constructor
  · intro tm hits mc c hc
    rw [fallbackFromHits] at hc
    by_cases hx : (fallbackGo mc hits [] 0).isEmpty && tm
    · rw [if_pos hx] at hc
      rcases List.mem_singleton.mp hc with rfl
      rfl
    · rw [if_neg hx] at hc
      exact fallbackGo_confidence mc hits [] 0 c hc
  · intro t cands ht hall
    have hfil : cands.filter (fun c => decide (t ≤ c.confidence)) = [] := by
      rw [List.filter_eq_nil_iff]
      intro c hc
      have := hall c hc
      simp only [this, decide_eq_true_eq]
      intro hle
      exact absurd (lt_of_lt_of_le ht hle) (lt_irrefl _)
    simp [finalizeResponse, hfil]

/-- C10 witness: with the threshold raised to 0.50, the two-part statement
instantiated at a concrete hit list whose fallback candidate gets no bump. -/
theorem C10_witness :
    (∀ c ∈ fallbackFromHits false
        [⟨some (str "8504.40"), some (str "HTS:8504.40#0"),
          some (str "Static converters"), 0, none, none, none⟩] 2,
      c.confidence = 2/5) ∧
    ((2 : ℚ)/5 < 1/2) ∧
    finalizeResponse (1/2)
      (fallbackFromHits false
        [⟨some (str "8504.40"), some (str "HTS:8504.40#0"),
          some (str "Static converters"), 0, none, none, none⟩] 2) =
      ⟨DISCLAIMER, []⟩ :=
  ⟨C10_fallback_below_raised_threshold.1 false _ 2,
   by norm_num,
   C10_fallback_below_raised_threshold.2 (1/2) _ (by norm_num)
     (C10_fallback_below_raised_threshold.1 false _ 2)⟩

-- ============================ Claim C7 ====================================

/-- Helper: the fallback loop emits at most `mc - cnt` candidates. -/
theorem fallbackGo_length (mc : ℕ) :
    ∀ (hits : List Hit) (seen : List Str) (cnt : ℕ), cnt < mc →
      (fallbackGo mc hits seen cnt).length ≤ mc - cnt := by
  intro hits
  induction hits with
  | nil => intro seen cnt hcnt; simp [fallbackGo]
  | cons h rest ih =>
    intro seen cnt hcnt
    rw [fallbackGo]
    rcases hx : extractCodeFromHit h with _ | code
    · exact ih seen cnt hcnt
    · dsimp only
      by_cases hskip : code.isEmpty || decide (code ∈ seen)
      · rw [if_pos hskip]
        exact ih seen cnt hcnt
      · rw [if_neg hskip]
        by_cases hbreak : mc ≤ cnt + 1
        · rw [if_pos hbreak]
          simp only [List.length_singleton]
          omega
        · rw [if_neg hbreak]
          simp only [List.length_cons]
          have := ih (code :: seen) (cnt + 1) (by omega)
          omega

/-- Helper: every emitted candidate is `fallbackCandidate h code` for some
input hit `h` whose extracted code is `code`. -/
theorem fallbackGo_mem (mc : ℕ) :
    ∀ (hits : List Hit) (seen : List Str) (cnt : ℕ),
      ∀ c ∈ fallbackGo mc hits seen cnt, ∃ h ∈ hits, ∃ code,
        extractCodeFromHit h = some code ∧ c = fallbackCandidate h code := by
  intro hits
  induction hits with
  | nil => intro seen cnt c hc; simp [fallbackGo] at hc
  | cons h rest ih =>
    intro seen cnt c hc
    rw [fallbackGo] at hc
    rcases hx : extractCodeFromHit h with _ | code
    · rw [hx] at hc
      obtain ⟨h2, hh2, code, hcode, hc2⟩ := ih seen cnt c hc
      exact ⟨h2, List.mem_cons_of_mem h hh2, code, hcode, hc2⟩
    · rw [hx] at hc
      dsimp only at hc
      by_cases hskip : code.isEmpty || decide (code ∈ seen)
      · rw [if_pos hskip] at hc
        obtain ⟨h2, hh2, code2, hcode2, hc2⟩ := ih seen cnt c hc
        exact ⟨h2, List.mem_cons_of_mem h hh2, code2, hcode2, hc2⟩
      · rw [if_neg hskip] at hc
        by_cases hbreak : mc ≤ cnt + 1
        · rw [if_pos hbreak] at hc
          rcases List.mem_singleton.mp hc with rfl
          exact ⟨h, List.mem_cons_self h rest, code, hx, rfl⟩
        · rw [if_neg hbreak] at hc
          rcases List.mem_cons.mp hc with rfl | hmem
          · exact ⟨h, List.mem_cons_self h rest, code, hx, rfl⟩
          · obtain ⟨h2, hh2, code2, hcode2, hc2⟩ :=
              ih (code :: seen) (cnt + 1) c hmem
            exact ⟨h2, List.mem_cons_of_mem h hh2, code2, hcode2, hc2⟩

/-- Helper: the emitted candidates carry pairwise-distinct codes, and none
of them carries a code from the `seen` accumulator. -/
theorem fallbackGo_codes_nodup (mc : ℕ) :
    ∀ (hits : List Hit) (seen : List Str) (cnt : ℕ),
      ((fallbackGo mc hits seen cnt).map Candidate.code).Nodup ∧
      ∀ c ∈ fallbackGo mc hits seen cnt, c.code ∉ seen := by
  intro hits
  induction hits with
  | nil => intro seen cnt; simp [fallbackGo]
  | cons h rest ih =>
    intro seen cnt
    rw [fallbackGo]
    rcases hx : extractCodeFromHit h with _ | code
    · exact ih seen cnt
    · dsimp only
      by_cases hskip : code.isEmpty || decide (code ∈ seen)
      · rw [if_pos hskip]
        exact ih seen cnt
      · rw [if_neg hskip]
        have hnotseen : code ∉ seen := by
          intro habs
          exact hskip (by simp [habs])
        by_cases hbreak : mc ≤ cnt + 1
        · rw [if_pos hbreak]
          constructor
          · simp
          · intro c hc
            rcases List.mem_singleton.mp hc with rfl
            exact hnotseen
        · rw [if_neg hbreak]
          obtain ⟨ihnd, ihseen⟩ := ih (code :: seen) (cnt + 1)
          constructor
          · simp only [List.map_cons, List.nodup_cons]
            refine ⟨?_, ihnd⟩
            intro hmemmap
            obtain ⟨c, hcmem, hceq⟩ := List.mem_map.mp hmemmap
            have := ihseen c hcmem
            rw [hceq] at this
            exact this (List.mem_cons_self _ _)
          · intro c hc
            rcases List.mem_cons.mp hc with rfl | hmem
            · exact hnotseen
            · intro habs
              exact ihseen c hmem (List.mem_cons_of_mem _ habs)

/-- Helper: the description of a synthesized candidate, for a hit with a
non-empty strip-invariant snippet: the snippet itself when it fits in 140
characters, and the 140-character word-boundary truncation with an
ellipsis when it is longer. -/
theorem fallbackCandidate_description (h : Hit) (code s : Str)
    (hs : h.snippet = some s) (hsn : s ≠ []) (hstrip : pyStrip s = s) :
    (s.length ≤ 140 → (fallbackCandidate h code).description = s) ∧
    (140 < s.length → (fallbackCandidate h code).description =
      rsplitBeforeLastSpace (s.take 140) ++ str "…") := by
  have hsne : s.isEmpty = false := by
    simpa using hsn
  have h1 : pyOrStr h.snippet h.text = some s := by
    simp [pyOrStr, hs, hsne]
  have h2 : pyOrStr (some s)
      (some (str "HTS reference for code " ++ code ++ str ".")) = some s := by
    simp [pyOrStr, hsne]
  constructor
  · intro hlen
    simp only [fallbackCandidate, h1, h2, Option.getD_some, hstrip]
    rw [truncateDesc, if_neg (by omega)]
  · intro hlen
    simp only [fallbackCandidate, h1, h2, Option.getD_some, hstrip]
    rw [truncateDesc, if_pos (by omega)]

/-- Helper: when `_mk_evidence` succeeds on the hit's anchor-or-id, the
synthesized candidate carries exactly that evidence entry. -/
theorem fallbackCandidate_evidence_some (h : Hit) (code : Str) (e : Evidence)
    (hmk : mkEvidence (str "HTS") (pyOrStr h.anchor h.id) none = some e) :
    (fallbackCandidate h code).evidence = [e] := by
  simp only [fallbackCandidate, hmk]
  simp

/-- Helper: when `_mk_evidence` fails (anchor and id both absent or
blank), the synthesized candidate carries the fixed stub entry, which
references no hit. -/
theorem fallbackCandidate_evidence_none (h : Hit) (code : Str)
    (hmk : mkEvidence (str "HTS") (pyOrStr h.anchor h.id) none = none) :
    (fallbackCandidate h code).evidence =
      [⟨str "HTS", str "stub", none⟩] := by
  simp only [fallbackCandidate, hmk]
  simp

/-- Helper: a hit with a present, non-blank anchor yields the stripped
anchor as the single evidence id. -/
theorem fallbackCandidate_evidence_anchor (h : Hit) (code a : Str)
    (ha : h.anchor = some a) (hane : pyStrip a ≠ []) :
    (fallbackCandidate h code).evidence =
      [⟨str "HTS", pyStrip a, none⟩] := by
  have hane2 : a.isEmpty = false := by
    by_contra hcon
    rw [Bool.not_eq_false] at hcon
    rw [List.isEmpty_iff.mp hcon] at hane
    exact hane rfl
  have hsidne : (pyStrip a).isEmpty = false := by
    simpa using hane
  have h3 : pyOrStr h.anchor h.id = some a := by
    simp [pyOrStr, ha, hane2]
  have h4 : mkEvidence (str "HTS") (pyOrStr h.anchor h.id) none =
      some ⟨str "HTS", pyStrip a, none⟩ := by
    rw [h3]
    simp [mkEvidence, hane2, hsidne]
  exact fallbackCandidate_evidence_some h code _ h4

/-- Helper: every synthesized candidate carries exactly one evidence
entry (the anchor-derived one or the stub). -/
theorem fallbackCandidate_evidence_one (h : Hit) (code : Str) :
    (fallbackCandidate h code).evidence.length = 1 := by
  cases hmk : mkEvidence (str "HTS") (pyOrStr h.anchor h.id) none with
  | none => rw [fallbackCandidate_evidence_none h code hmk]; rfl
  | some e => rw [fallbackCandidate_evidence_some h code e hmk]; rfl

set_option maxRecDepth 4000 in
/-- C7 counterexample: the claim fails on hits the hydration step actually
produces. `_hydrate_hits_with_meta` supplies snippets of up to 300
characters, and `_fallback_from_hits` cuts any snippet longer than 140
characters at a word boundary and appends an ellipsis, so the candidate's
description is NOT the hit's snippet (a 141-character snippet becomes its
140-character prefix plus `…`); and a hit whose anchor is blank (and id
absent) yields the fixed `{source: HTS, id: "stub"}` entry, which does not
reference the hit's anchor. -/
theorem C7_counterexample :
    ((fallbackFromHits false
        [⟨some (str "8504.40"), some (str "HTS:8504.40#0"),
          some (List.replicate 141 'a'), 0, none, none, none⟩] 2).map
      Candidate.description =
      [List.replicate 140 'a' ++ str "…"]) ∧
    (List.replicate 140 'a' ++ str "…" ≠ List.replicate 141 'a') ∧
    ((fallbackFromHits false
        [⟨some (str "8536.69"), some (str ""), some (str "Other apparatus"),
          0, none, none, none⟩] 2).map Candidate.evidence =
      [[⟨str "HTS", str "stub", none⟩]]) ∧
    (str "stub" ≠ pyStrip (str "")) := by
  refine ⟨?_, ?_, ?_, ?_⟩
  · decide
  · decide
  · decide
  · decide

/-- C7 (amended): whenever the reasoning step returns zero structured
candidates, the route calls `_fallback_from_hits` (classify lines
338–340), which synthesizes at most 2 candidates from the hits, one per
distinct resolvable HTS code, each carrying confidence exactly 0.40 and
exactly one evidence entry. The description is the hit's (non-empty,
strip-invariant) snippet only when it is at most 140 characters; longer
snippets are cut at 140 characters back to the preceding word boundary
with an ellipsis appended. The evidence entry is the one `_mk_evidence`
builds from the hit's anchor-or-id when that succeeds — in particular the
stripped anchor whenever the anchor is present and non-blank — and the
fixed `{source: HTS, id: "stub"}` entry, referencing no hit, otherwise. -/
theorem C7_fallback_synthesis (hits : List Hit) :
    (fallbackFromHits false hits 2).length ≤ 2 ∧
    ((fallbackFromHits false hits 2).map Candidate.code).Nodup ∧
    (∀ c ∈ fallbackFromHits false hits 2,
      c.confidence = 2/5 ∧ c.evidence.length = 1) ∧
    (∀ c ∈ fallbackFromHits false hits 2, ∃ h ∈ hits,
      extractCodeFromHit h = some c.code ∧
      (∀ s, h.snippet = some s → s ≠ [] → pyStrip s = s →
        (s.length ≤ 140 → c.description = s) ∧
        (140 < s.length → c.description =
          rsplitBeforeLastSpace (s.take 140) ++ str "…")) ∧
      (∀ e, mkEvidence (str "HTS") (pyOrStr h.anchor h.id) none = some e →
        c.evidence = [e]) ∧
      (mkEvidence (str "HTS") (pyOrStr h.anchor h.id) none = none →
        c.evidence = [⟨str "HTS", str "stub", none⟩]) ∧
      (∀ a, h.anchor = some a → pyStrip a ≠ [] →
        c.evidence = [⟨str "HTS", pyStrip a, none⟩])) := by
  have hout : fallbackFromHits false hits 2 = fallbackGo 2 hits [] 0 := by
    simp [fallbackFromHits]
  rw [hout]
  refine ⟨?_, (fallbackGo_codes_nodup 2 hits [] 0).1, ?_, ?_⟩
  · have := fallbackGo_length 2 hits [] 0 (by norm_num)
    omega
  · intro c hc
    obtain ⟨h, hh, code, hcode, rfl⟩ := fallbackGo_mem 2 hits [] 0 c hc
    exact ⟨rfl, fallbackCandidate_evidence_one h code⟩
  · intro c hc
    obtain ⟨h, hh, code, hcode, rfl⟩ := fallbackGo_mem 2 hits [] 0 c hc
    refine ⟨h, hh, hcode, ?_, ?_, ?_, ?_⟩
    · intro s hs hsn hstrip
      exact fallbackCandidate_description h code s hs hsn hstrip
    · intro e hmk
      exact fallbackCandidate_evidence_some h code e hmk
    · intro hmk
      exact fallbackCandidate_evidence_none h code hmk
    · intro a ha hane
      exact fallbackCandidate_evidence_anchor h code a ha hane

/-- C7 witness: the amended statement applied to the spec's own scenario
(anchored hit with the 17-character snippet "Static converters"),
discharging the inner hypotheses concretely: the single candidate carries
the snippet verbatim, confidence 0.40, and the anchor as evidence. -/
theorem C7_witness :
    (fallbackFromHits false [(⟨some (str "8504.40"),
        some (str "HTS:8504.40#0"), some (str "Static converters"), 0,
        none, none, none⟩ : Hit)] 2).length ≤ 2 ∧
    ((fallbackFromHits false [(⟨some (str "8504.40"),
        some (str "HTS:8504.40#0"), some (str "Static converters"), 0,
        none, none, none⟩ : Hit)] 2).map Candidate.code).Nodup ∧
    ∀ c ∈ fallbackFromHits false [(⟨some (str "8504.40"),
        some (str "HTS:8504.40#0"), some (str "Static converters"), 0,
        none, none, none⟩ : Hit)] 2,
      c.confidence = 2/5 ∧ c.evidence.length = 1 ∧
      c.description = str "Static converters" ∧
      c.evidence = [⟨str "HTS", str "HTS:8504.40#0", none⟩] := by
  refine ⟨(C7_fallback_synthesis _).1, (C7_fallback_synthesis _).2.1, ?_⟩
  intro c hc
  obtain ⟨hconf, hlen⟩ := (C7_fallback_synthesis _).2.2.1 c hc
  obtain ⟨h, hh, hcode, hdesc, hevs, hevn, heva⟩ :=
    (C7_fallback_synthesis _).2.2.2 c hc
  rcases List.mem_singleton.mp hh with rfl
  refine ⟨hconf, hlen, ?_, ?_⟩
  · exact (hdesc (str "Static converters") rfl (by decide) (by decide)).1
      (by decide)
  · have h5 := heva (str "HTS:8504.40#0") rfl (by decide)
    rw [h5]
    decide

-- ============================ Claim C8 ====================================

/-- Helper: a left fold of `min` is bounded by its initial value. -/
theorem foldl_min_le_init (l : List ℚ) : ∀ v : ℚ, l.foldl min v ≤ v := by
  induction l with
  | nil => intro v; simp
  | cons a l ih =>
    intro v
    exact le_trans (ih (min v a)) (min_le_left v a)

/-- Helper: a left fold of `min` is bounded by every list element. -/
theorem foldl_min_le_mem (l : List ℚ) :
    ∀ (v x : ℚ), x ∈ l → l.foldl min v ≤ x := by
  induction l with
  | nil => intro v x hx; simp at hx
  | cons a l ih =>
    intro v x hx
    rcases List.mem_cons.mp hx with rfl | hx2
    · exact le_trans (foldl_min_le_init l (min v x)) (min_le_right v x)
    · exact ih (min v a) x hx2

/-- Helper: a left fold of `min` is the initial value or a list element. -/
theorem foldl_min_mem (l : List ℚ) :
    ∀ v : ℚ, l.foldl min v = v ∨ l.foldl min v ∈ l := by
  induction l with
  | nil => intro v; left; rfl
  | cons a l ih =>
    intro v
    rcases ih (min v a) with h | h
    · rcases le_total v a with hva | hav
      · left
        show l.foldl min (min v a) = v
        rw [h, min_eq_left hva]
      · right
        show l.foldl min (min v a) ∈ a :: l
        rw [h, min_eq_right hav]
        exact List.mem_cons_self a l
    · right
      exact List.mem_cons_of_mem a h

/-- Helper: a left fold of `max` dominates its initial value. -/
theorem foldl_max_ge_init (l : List ℚ) : ∀ v : ℚ, v ≤ l.foldl max v := by
  induction l with
  | nil => intro v; simp
  | cons a l ih =>
    intro v
    exact le_trans (le_max_left v a) (ih (max v a))

/-- Helper: a left fold of `max` dominates every list element. -/
theorem foldl_max_ge_mem (l : List ℚ) :
    ∀ (v x : ℚ), x ∈ l → x ≤ l.foldl max v := by
  induction l with
  | nil => intro v x hx; simp at hx
  | cons a l ih =>
    intro v x hx
    rcases List.mem_cons.mp hx with rfl | hx2
    · exact le_trans (le_max_right v x) (foldl_max_ge_init l (max v x))
    · exact ih (max v a) x hx2

/-- Helper: a left fold of `max` is the initial value or a list element. -/
theorem foldl_max_mem (l : List ℚ) :
    ∀ v : ℚ, l.foldl max v = v ∨ l.foldl max v ∈ l := by
  induction l with
  | nil => intro v; left; rfl
  | cons a l ih =>
    intro v
    rcases ih (max v a) with h | h
    · rcases le_total a v with hav | hva
      · left
        show l.foldl max (max v a) = v
        rw [h, max_eq_left hav]
      · right
        show l.foldl max (max v a) ∈ a :: l
        rw [h, max_eq_right hva]
        exact List.mem_cons_self a l
    · right
      exact List.mem_cons_of_mem a h

/-- Helper: `pyMin` bounds every element of a non-empty list. -/
theorem pyMin_le {l : List ℚ} (hne : l ≠ []) : ∀ x ∈ l, pyMin l ≤ x := by
  cases l with
  | nil => exact absurd rfl hne
  | cons v rest =>
    intro x hx
    rcases List.mem_cons.mp hx with rfl | hx2
    · exact foldl_min_le_init rest x
    · exact foldl_min_le_mem rest v x hx2

/-- Helper: `pyMin` of a non-empty list is one of its elements. -/
theorem pyMin_mem {l : List ℚ} (hne : l ≠ []) : pyMin l ∈ l := by
  cases l with
  | nil => exact absurd rfl hne
  | cons v rest =>
    rcases foldl_min_mem rest v with h | h
    · show rest.foldl min v ∈ v :: rest
      rw [h]
      exact List.mem_cons_self v rest
    · exact List.mem_cons_of_mem v h

/-- Helper: `pyMax` dominates every element of a non-empty list. -/
theorem pyMax_ge {l : List ℚ} (hne : l ≠ []) : ∀ x ∈ l, x ≤ pyMax l := by
  cases l with
  | nil => exact absurd rfl hne
  | cons v rest =>
    intro x hx
    rcases List.mem_cons.mp hx with rfl | hx2
    · exact foldl_max_ge_init rest x
    · exact foldl_max_ge_mem rest v x hx2

/-- Helper: `pyMax` of a non-empty list is one of its elements. -/
theorem pyMax_mem {l : List ℚ} (hne : l ≠ []) : pyMax l ∈ l := by
  cases l with
  | nil => exact absurd rfl hne
  | cons v rest =>
    rcases foldl_max_mem rest v with h | h
    · show rest.foldl max v ∈ v :: rest
      rw [h]
      exact List.mem_cons_self v rest
    · exact List.mem_cons_of_mem v h

/-- Helper: `math.isclose` is reflexive. -/
theorem isclose_self (a : ℚ) : isclose a a = true := by
  simp only [isclose, decide_eq_true_eq, sub_self, abs_zero]
  positivity

/-- Helper: values that are not close are not equal. -/
theorem isclose_false_ne {a b : ℚ} (h : isclose a b = false) : a ≠ b := by
  intro heq
  rw [heq, isclose_self] at h
  exact absurd h (by simp)

/-- C8 (amended): for every non-empty score list, if the maximum is within
relative tolerance `1e-9` of the minimum (`math.isclose`; in particular
whenever all raw scores are equal), every normalized score is `0.0`;
otherwise every normalized score lies in `[0, 1]`, every entry carrying
the minimum raw score normalizes to exactly `0.0`, and every entry
carrying the maximum raw score normalizes to exactly `1.0`. -/
theorem C8_normalize_minmax (scores : List (ℕ × ℚ)) (hne : scores ≠ []) :
    ((∀ p ∈ scores, ∀ q ∈ scores, p.2 = q.2) →
      ∀ r ∈ normalizeScores scores, r.2 = 0) ∧
    (isclose (pyMax (scores.map Prod.snd)) (pyMin (scores.map Prod.snd)) =
        true →
      ∀ r ∈ normalizeScores scores, r.2 = 0) ∧
    (isclose (pyMax (scores.map Prod.snd)) (pyMin (scores.map Prod.snd)) =
        false →
      (∀ r ∈ normalizeScores scores, 0 ≤ r.2 ∧ r.2 ≤ 1) ∧
      (∀ p ∈ scores, p.2 = pyMin (scores.map Prod.snd) →
        (p.1, (0 : ℚ)) ∈ normalizeScores scores) ∧
      (∀ p ∈ scores, p.2 = pyMax (scores.map Prod.snd) →
        (p.1, (1 : ℚ)) ∈ normalizeScores scores)) := by
  cases scores with
  | nil => exact absurd rfl hne
  | cons q0 l =>
    have hvne : (q0 :: l).map Prod.snd ≠ [] := by simp
    have hlo_le := pyMin_le hvne
    have hhi_ge := pyMax_ge hvne
    have part2 : isclose (pyMax ((q0 :: l).map Prod.snd))
        (pyMin ((q0 :: l).map Prod.snd)) = true →
        ∀ r ∈ normalizeScores (q0 :: l), r.2 = 0 := by
      intro hiso r hr
      simp only [normalizeScores, hiso, if_true] at hr
      obtain ⟨p, hp, hpr⟩ := List.mem_map.mp hr
      rw [← hpr]
    refine ⟨?_, part2, ?_⟩
    · intro hall
      apply part2
      obtain ⟨ph, hph, hpheq⟩ :=
        List.mem_map.mp (pyMax_mem hvne)
      obtain ⟨pl, hpl, hpleq⟩ :=
        List.mem_map.mp (pyMin_mem hvne)
      rw [← hpheq, ← hpleq, hall ph hph pl hpl]
      exact isclose_self _
    · intro hiso
      have hne2 : pyMax ((q0 :: l).map Prod.snd) ≠
          pyMin ((q0 :: l).map Prod.snd) := isclose_false_ne hiso
      have hlohi : pyMin ((q0 :: l).map Prod.snd) ≤
          pyMax ((q0 :: l).map Prod.snd) :=
        hlo_le _ (pyMax_mem hvne)
      have hspan : 0 < pyMax ((q0 :: l).map Prod.snd) -
          pyMin ((q0 :: l).map Prod.snd) := by
        rcases lt_or_eq_of_le hlohi with h | h
        · linarith
        · exact absurd h.symm hne2
      have hnorm : normalizeScores (q0 :: l) = (q0 :: l).map (fun p =>
          (p.1, (p.2 - pyMin ((q0 :: l).map Prod.snd)) /
            (pyMax ((q0 :: l).map Prod.snd) -
              pyMin ((q0 :: l).map Prod.snd)))) := by
        simp only [normalizeScores, hiso]
        rfl
      refine ⟨?_, ?_, ?_⟩
      · intro r hr
        rw [hnorm] at hr
        obtain ⟨p, hp, hpr⟩ := List.mem_map.mp hr
        rw [← hpr]
        constructor
        · exact div_nonneg (by
            have := hlo_le p.2 (List.mem_map_of_mem Prod.snd hp)
            linarith) (le_of_lt hspan)
        · rw [div_le_one hspan]
          have := hhi_ge p.2 (List.mem_map_of_mem Prod.snd hp)
          linarith
      · intro p hp hplo
        rw [hnorm]
        refine List.mem_map.mpr ⟨p, hp, ?_⟩
        rw [hplo]
        simp
      · intro p hp hphi
        rw [hnorm]
        refine List.mem_map.mpr ⟨p, hp, ?_⟩
        rw [hphi]
        rw [div_self (ne_of_gt hspan)]

/-- Helper: the minimum of the near-tied pair `{1, 1 + 1e-10}`. -/
theorem nearTie_pyMin : pyMin [(1 : ℚ), 1 + 1/10^10] = 1 := by
  simp only [pyMin, List.foldl_cons, List.foldl_nil]
  rw [min_eq_left (by norm_num)]

/-- Helper: the maximum of the near-tied pair `{1, 1 + 1e-10}`. -/
theorem nearTie_pyMax : pyMax [(1 : ℚ), 1 + 1/10^10] = 1 + 1/10^10 := by
  simp only [pyMax, List.foldl_cons, List.foldl_nil]
  rw [max_eq_right (by norm_num)]

/-- Helper: the near-tied pair is `math.isclose` under `rel_tol = 1e-9`. -/
theorem nearTie_isclose : isclose (1 + 1/10^10) 1 = true := by
  simp only [isclose, decide_eq_true_eq]
  have h1 : |(1 : ℚ) + 1/10^10 - 1| = 1/10^10 := by
    rw [abs_of_nonneg (by norm_num)]
    norm_num
  have h2 : max |(1 : ℚ) + 1/10^10| |(1 : ℚ)| = 1 + 1/10^10 := by
    rw [abs_of_nonneg (by norm_num : (0:ℚ) ≤ 1 + 1/10^10),
      abs_of_nonneg (by norm_num : (0:ℚ) ≤ 1),
      max_eq_left (by norm_num)]
  rw [h1, h2]
  norm_num

/-- C8 counterexample: the raw scores `1` and `1 + 1e-10` are NOT all
equal, yet `math.isclose(hi, lo, rel_tol=1e-9)` holds, so `_normalize`
maps both to `0.0`: the maximum raw score normalizes to `0.0`, not `1.0`,
refuting the claim's "otherwise" branch. -/
theorem C8_counterexample :
    normalizeScores [(0, 1), (1, 1 + 1/10^10)] = [(0, 0), (1, 0)] ∧
    ((1 : ℚ) ≠ 1 + 1/10^10) ∧
    ((1 : ℕ), (1 : ℚ)) ∉ normalizeScores [(0, 1), (1, 1 + 1/10^10)] := by
  have hmap : ([((0:ℕ), (1:ℚ)), (1, 1 + 1/10^10)]).map Prod.snd =
      [(1 : ℚ), 1 + 1/10^10] := rfl
  have hiso : isclose (pyMax [(1 : ℚ), 1 + 1/10^10])
      (pyMin [(1 : ℚ), 1 + 1/10^10]) = true := by
    rw [nearTie_pyMin, nearTie_pyMax]
    exact nearTie_isclose
  have heq : normalizeScores [(0, 1), (1, 1 + 1/10^10)] = [(0, 0), (1, 0)] := by
    simp only [normalizeScores, hmap, hiso, if_true, List.map_cons,
      List.map_nil]
  refine ⟨heq, by norm_num, ?_⟩
  rw [heq]
  intro hmem
  rcases List.mem_cons.mp hmem with h | h
  · exact absurd (congrArg Prod.fst h) (by norm_num)
  · rcases List.mem_singleton.mp h with h2
    exact absurd (congrArg Prod.snd h2) (by norm_num)

/-- C8 witness: the amended statement instantiated at the clearly-spread
score set `{0, 2}`, discharging non-emptiness and the non-degeneracy
condition concretely. -/
theorem C8_witness :
    ([((0:ℕ), (0:ℚ)), (1, 2)] ≠ ([] : List (ℕ × ℚ))) ∧
    isclose (pyMax ([((0:ℕ), (0:ℚ)), (1, 2)].map Prod.snd))
      (pyMin ([((0:ℕ), (0:ℚ)), (1, 2)].map Prod.snd)) = false ∧
    (∀ r ∈ normalizeScores [((0:ℕ), (0:ℚ)), (1, 2)], 0 ≤ r.2 ∧ r.2 ≤ 1) := by
  have hfalse : isclose (pyMax ([((0:ℕ), (0:ℚ)), (1, 2)].map Prod.snd))
      (pyMin ([((0:ℕ), (0:ℚ)), (1, 2)].map Prod.snd)) = false := by
    have hmap : ([((0:ℕ), (0:ℚ)), (1, 2)]).map Prod.snd = [(0 : ℚ), 2] := rfl
    rw [hmap]
    simp only [pyMax, pyMin, List.foldl_cons, List.foldl_nil]
    rw [max_eq_right (by norm_num : (0:ℚ) ≤ 2),
      min_eq_left (by norm_num : (0:ℚ) ≤ 2)]
    simp only [isclose, decide_eq_false_iff_not]
    intro habs
    rw [abs_of_nonneg (by norm_num : (0:ℚ) ≤ 2 - 0)] at habs
    have : max |(2:ℚ)| |(0:ℚ)| = 2 := by
      rw [abs_of_nonneg (by norm_num : (0:ℚ) ≤ 2), abs_zero,
        max_eq_left (by norm_num)]
    rw [this] at habs
    norm_num at habs
  exact ⟨by simp, hfalse,
    ((C8_normalize_minmax [((0:ℕ), (0:ℚ)), (1, 2)] (by simp)).2.2 hfalse).1⟩

-- ===================== Sorting machinery (C5 / C6) ========================

/-- Helper: `lexGe` is total. -/
theorem lexGe_total (x1 y1 x2 y2 : ℚ) (i j : ℕ) :
    lexGe x1 y1 x2 y2 i j ∨ lexGe y1 x1 y2 x2 j i := by
  unfold lexGe
  rcases lt_trichotomy y1 x1 with h | h | h
  · exact Or.inl (Or.inl h)
  · rcases lt_trichotomy y2 x2 with g | g | g
    · exact Or.inl (Or.inr ⟨h, Or.inl g⟩)
    · rcases le_total i j with hij | hji
      · exact Or.inl (Or.inr ⟨h, Or.inr ⟨g, hij⟩⟩)
      · exact Or.inr (Or.inr ⟨h.symm, Or.inr ⟨g.symm, hji⟩⟩)
    · exact Or.inr (Or.inr ⟨h.symm, Or.inl g⟩)
  · exact Or.inr (Or.inl h)

/-- Helper: `lexGe` is transitive. -/
theorem lexGe_trans {x1 y1 z1 x2 y2 z2 : ℚ} {i j k : ℕ}
    (h1 : lexGe x1 y1 x2 y2 i j) (h2 : lexGe y1 z1 y2 z2 j k) :
    lexGe x1 z1 x2 z2 i k := by
  unfold lexGe at h1 h2 ⊢
  rcases h1 with ha | ⟨ha, hb⟩
  · rcases h2 with hc | ⟨hc, -⟩
    · exact Or.inl (by linarith)
    · exact Or.inl (by linarith)
  · rcases h2 with hc | ⟨hc, hd⟩
    · exact Or.inl (by linarith)
    · refine Or.inr ⟨by linarith, ?_⟩
      rcases hb with hb1 | ⟨hb1, hb2⟩
      · rcases hd with hd1 | ⟨hd1, -⟩
        · exact Or.inl (by linarith)
        · exact Or.inl (by linarith)
      · rcases hd with hd1 | ⟨hd1, hd2⟩
        · exact Or.inl (by linarith)
        · exact Or.inr ⟨by linarith, le_trans hb2 hd2⟩

/-- Helper: mutually related indices under `lexGe` are equal. -/
theorem lexGe_antisymm {x1 y1 x2 y2 : ℚ} {i j : ℕ}
    (h1 : lexGe x1 y1 x2 y2 i j) (h2 : lexGe y1 x1 y2 x2 j i) : i = j := by
  unfold lexGe at h1 h2
  rcases h1 with ha | ⟨ha, hb⟩
  · rcases h2 with hc | ⟨hc, -⟩
    · linarith
    · linarith
  · rcases h2 with hc | ⟨hc, hd⟩
    · linarith
    · rcases hb with hb1 | ⟨hb1, hb2⟩
      · rcases hd with hd1 | ⟨hd1, -⟩
        · linarith
        · linarith
      · rcases hd with hd1 | ⟨hd1, hd2⟩
        · linarith
        · omega

/-- Helper: the Boolean comparator `fusedGe` decides `lexGe` on the
record's `(fused, bm25, idx)` key. -/
theorem fusedGe_eq_true_iff (x y : FusedRec) :
    fusedGe x y = true ↔ lexGe x.2.1 y.2.1 x.2.2.1 y.2.2.1 x.1 y.1 := by
  simp [fusedGe, lexGe]

/-- Helper: the spec-claimed comparator decides `lexGe` with the index
roles swapped (higher index preferred on full ties). -/
theorem claimedGe_eq_true_iff (x y : FusedRec) :
    claimedGe x y = true ↔ lexGe x.2.1 y.2.1 x.2.2.1 y.2.2.1 y.1 x.1 := by
  simp [claimedGe, lexGe]

/-- Helper: `fusedGe` is transitive (as a Boolean comparator). -/
theorem fusedGe_trans_bool (x y z : FusedRec) (h1 : fusedGe x y = true)
    (h2 : fusedGe y z = true) : fusedGe x z = true := by
  rw [fusedGe_eq_true_iff] at h1 h2 ⊢
  exact lexGe_trans h1 h2

/-- Helper: `fusedGe` is total (as a Boolean comparator). -/
theorem fusedGe_total_bool (x y : FusedRec) :
    (fusedGe x y || fusedGe y x) = true := by
  rw [Bool.or_eq_true, fusedGe_eq_true_iff, fusedGe_eq_true_iff]
  exact lexGe_total x.2.1 y.2.1 x.2.2.1 y.2.2.1 x.1 y.1

/-- Helper: `lexGe` transitivity with the index slots used in reverse
(keys descending along `x, y, z`; indices descending along `i, j, k`). -/
theorem lexGe_trans_rev {x1 y1 z1 x2 y2 z2 : ℚ} {i j k : ℕ}
    (h1 : lexGe x1 y1 x2 y2 j i) (h2 : lexGe y1 z1 y2 z2 k j) :
    lexGe x1 z1 x2 z2 k i := by
  unfold lexGe at h1 h2 ⊢
  rcases h1 with ha | ⟨ha, hb⟩
  · rcases h2 with hc | ⟨hc, -⟩
    · exact Or.inl (by linarith)
    · exact Or.inl (by linarith)
  · rcases h2 with hc | ⟨hc, hd⟩
    · exact Or.inl (by linarith)
    · refine Or.inr ⟨by linarith, ?_⟩
      rcases hb with hb1 | ⟨hb1, hb2⟩
      · rcases hd with hd1 | ⟨hd1, -⟩
        · exact Or.inl (by linarith)
        · exact Or.inl (by linarith)
      · rcases hd with hd1 | ⟨hd1, hd2⟩
        · exact Or.inl (by linarith)
        · exact Or.inr ⟨by linarith, le_trans hd2 hb2⟩

/-- Helper: `claimedGe` is transitive (as a Boolean comparator). -/
theorem claimedGe_trans_bool (x y z : FusedRec) (h1 : claimedGe x y = true)
    (h2 : claimedGe y z = true) : claimedGe x z = true := by
  rw [claimedGe_eq_true_iff] at h1 h2 ⊢
  exact lexGe_trans_rev h1 h2

/-- Helper: `claimedGe` is total (as a Boolean comparator). -/
theorem claimedGe_total_bool (x y : FusedRec) :
    (claimedGe x y || claimedGe y x) = true := by
  rw [Bool.or_eq_true, claimedGe_eq_true_iff, claimedGe_eq_true_iff]
  exact lexGe_total x.2.1 y.2.1 x.2.2.1 y.2.2.1 y.1 x.1

/-- Helper: the fused sort is a permutation of its input. -/
theorem sortFused_perm (l : List FusedRec) : (sortFused l).Perm l :=
  List.mergeSort_perm l fusedGe

/-- Helper: the fused sort is sorted under `fusedGe`. -/
theorem sortFused_pairwise (l : List FusedRec) :
    (sortFused l).Pairwise (fun x y => fusedGe x y = true) :=
  List.sorted_mergeSort fusedGe_trans_bool fusedGe_total_bool l

/-- Helper: the spec-claimed sort is a permutation of its input. -/
theorem claimedSortFused_perm (l : List FusedRec) :
    (claimedSortFused l).Perm l :=
  List.mergeSort_perm l claimedGe

/-- Helper: the spec-claimed sort is sorted under `claimedGe`. -/
theorem claimedSortFused_pairwise (l : List FusedRec) :
    (claimedSortFused l).Pairwise (fun x y => claimedGe x y = true) :=
  List.sorted_mergeSort claimedGe_trans_bool claimedGe_total_bool l

/-- Helper: a list permuting a two-element list is one of its two
arrangements. -/
theorem perm_two {α : Type} {l : List α} {a b : α} (h : l.Perm [a, b]) :
    l = [a, b] ∨ l = [b, a] := by
  match l, h.length_eq with
  | [x, y], _ =>
    have hx : x ∈ [a, b] := h.subset (List.mem_cons_self x [y])
    rcases List.mem_cons.mp hx with rfl | hx2
    · left
      have h2 : [y].Perm [b] := (List.perm_cons x).mp h
      rw [List.perm_singleton.mp h2]
    · rcases List.mem_singleton.mp hx2 with rfl
      right
      have hswap : ([a, x] : List α).Perm [x, a] := List.Perm.swap x a []
      have h2 : [y].Perm [a] := (List.perm_cons x).mp (h.trans hswap)
      rw [List.perm_singleton.mp h2]

-- ============================ Claim C5 ====================================

/-- C5 counterexample: on a full tie of fused and lexical scores, the code
breaks ties by index ASCENDING (`-t[0]` under `reverse=True`), not
descending as claimed: two fully-tied records come back in insertion
order `[idx 0, idx 1]`, while the claimed ordering would put index 1
first. -/
theorem C5_counterexample :
    sortFused [((0:ℕ), (1:ℚ), 1, 0), ((1:ℕ), (1:ℚ), 1, 0)] =
      [((0:ℕ), (1:ℚ), 1, 0), ((1:ℕ), (1:ℚ), 1, 0)] ∧
    claimedSortFused [((0:ℕ), (1:ℚ), 1, 0), ((1:ℕ), (1:ℚ), 1, 0)] =
      [((1:ℕ), (1:ℚ), 1, 0), ((0:ℕ), (1:ℚ), 1, 0)] ∧
    sortFused [((0:ℕ), (1:ℚ), 1, 0), ((1:ℕ), (1:ℚ), 1, 0)] ≠
      claimedSortFused [((0:ℕ), (1:ℚ), 1, 0), ((1:ℕ), (1:ℚ), 1, 0)] := by
  have h1 : sortFused [((0:ℕ), (1:ℚ), 1, 0), ((1:ℕ), (1:ℚ), 1, 0)] =
      [((0:ℕ), (1:ℚ), 1, 0), ((1:ℕ), (1:ℚ), 1, 0)] := by
    rcases perm_two (sortFused_perm
        [((0:ℕ), (1:ℚ), 1, 0), ((1:ℕ), (1:ℚ), 1, 0)]) with h | h
    · exact h
    · exfalso
      have hpw := sortFused_pairwise
        [((0:ℕ), (1:ℚ), 1, 0), ((1:ℕ), (1:ℚ), 1, 0)]
      rw [h] at hpw
      have hrel := (List.pairwise_cons.mp hpw).1 ((0:ℕ), (1:ℚ), 1, 0)
        (List.mem_singleton.mpr rfl)
      rw [fusedGe_eq_true_iff] at hrel
      rcases hrel with h2 | ⟨-, h2 | ⟨-, h2⟩⟩
      · exact absurd (show (1:ℚ) < 1 from h2) (lt_irrefl 1)
      · exact absurd (show (1:ℚ) < 1 from h2) (lt_irrefl 1)
      · have h3 : (1:ℕ) ≤ 0 := h2
        omega
  have h2 : claimedSortFused [((0:ℕ), (1:ℚ), 1, 0), ((1:ℕ), (1:ℚ), 1, 0)] =
      [((1:ℕ), (1:ℚ), 1, 0), ((0:ℕ), (1:ℚ), 1, 0)] := by
    rcases perm_two (claimedSortFused_perm
        [((0:ℕ), (1:ℚ), 1, 0), ((1:ℕ), (1:ℚ), 1, 0)]) with h | h
    · exfalso
      have hpw := claimedSortFused_pairwise
        [((0:ℕ), (1:ℚ), 1, 0), ((1:ℕ), (1:ℚ), 1, 0)]
      rw [h] at hpw
      have hrel := (List.pairwise_cons.mp hpw).1 ((1:ℕ), (1:ℚ), 1, 0)
        (List.mem_singleton.mpr rfl)
      rw [claimedGe_eq_true_iff] at hrel
      rcases hrel with h2 | ⟨-, h2 | ⟨-, h2⟩⟩
      · exact absurd (show (1:ℚ) < 1 from h2) (lt_irrefl 1)
      · exact absurd (show (1:ℚ) < 1 from h2) (lt_irrefl 1)
      · have h3 : (1:ℕ) ≤ 0 := h2
        omega
    · exact h
  refine ⟨h1, h2, ?_⟩
  rw [h1, h2]
  intro habs
  simp only [List.cons.injEq] at habs
  obtain ⟨hh, -⟩ := habs
  have h0 : (0:ℕ) = 1 := congrArg Prod.fst hh
  omega

/-- C5 (amended): `retrieve_with_fusion` truncates only after the full
sort; the full sort is a permutation of all score records ordered by fused
score descending, then by NORMALIZED lexical (BM25) score descending, then
by record index ASCENDING (insertion order, a fixed deterministic
tiebreak); and `_safe_top_k` clamps K to `[1, 50]` for every
caller-supplied value. -/
theorem C5_rank_sort_truncate (a : ℚ) (bm25Norm vecNorm : List (ℕ × ℚ))
    (n : ℕ) (k : Option ℤ) :
    fusionTopK a bm25Norm vecNorm n k =
      (sortFused (mkFusedRecords a bm25Norm vecNorm n)).take
        (max 1 (safeTopK k)).toNat ∧
    (sortFused (mkFusedRecords a bm25Norm vecNorm n)).Perm
      (mkFusedRecords a bm25Norm vecNorm n) ∧
    (sortFused (mkFusedRecords a bm25Norm vecNorm n)).Pairwise (fun x y =>
      y.2.1 < x.2.1 ∨ (y.2.1 = x.2.1 ∧
        (y.2.2.1 < x.2.2.1 ∨ (y.2.2.1 = x.2.2.1 ∧ x.1 ≤ y.1)))) ∧
    1 ≤ safeTopK k ∧ safeTopK k ≤ 50 := by
  refine ⟨rfl, sortFused_perm _, ?_, ?_, ?_⟩
  · exact (sortFused_pairwise _).imp
      (fun h => (fusedGe_eq_true_iff _ _).mp h)
  · cases k with
    | none => norm_num [safeTopK, DEFAULT_TOP_K]
    | some kk =>
      simp only [safeTopK]
      exact le_max_left 1 _
  · cases k with
    | none => norm_num [safeTopK, DEFAULT_TOP_K]
    | some kk =>
      simp only [safeTopK]
      exact max_le (by norm_num) (min_le_left _ _)

-- ============================ Claim C6 ====================================

/-- Helper: looking up any key in an all-zero score dict yields `0`. -/
theorem lookupD_const_zero (l : List (ℕ × ℚ)) (i : ℕ) :
    lookupD (l.map (fun p => (p.1, (0:ℚ)))) i = 0 := by
  induction l with
  | nil => rfl
  | cons q t ih =>
    by_cases h : q.1 = i
    · simp [lookupD, h]
    · simp only [List.map_cons, lookupD]
      rw [List.find?_cons_of_neg]
      · exact ih
      · simp [h]

/-- Helper: looking up a present key in a keyed map yields its value. -/
theorem lookupD_map_of_mem (f : ℕ → ℚ) (i : ℕ) :
    ∀ l : List ℕ, i ∈ l → lookupD (l.map (fun j => (j, f j))) i = f i := by
  intro l
  induction l with
  | nil => intro h; simp at h
  | cons j t ih =>
    intro h
    by_cases hji : j = i
    · subst hji
      simp [lookupD]
    · have hmem : i ∈ t := by
        rcases List.mem_cons.mp h with rfl | hm
        · exact absurd rfl hji
        · exact hm
      simp only [List.map_cons, lookupD]
      rw [List.find?_cons_of_neg]
      · exact ih hmem
      · simp [hji]

/-- Helper: when every raw score is equal, `_normalize` maps everything to
`0.0`. -/
theorem normalizeScores_allEq {scores : List (ℕ × ℚ)}
    (h : ∀ p ∈ scores, ∀ q ∈ scores, p.2 = q.2) :
    normalizeScores scores = scores.map (fun p => (p.1, 0)) := by
  cases scores with
  | nil => rfl
  | cons q0 l =>
    have hvne : (q0 :: l).map Prod.snd ≠ [] := by simp
    have hiso : isclose (pyMax ((q0 :: l).map Prod.snd))
        (pyMin ((q0 :: l).map Prod.snd)) = true := by
      obtain ⟨ph, hph, hpheq⟩ := List.mem_map.mp (pyMax_mem hvne)
      obtain ⟨pl, hpl, hpleq⟩ := List.mem_map.mp (pyMin_mem hvne)
      rw [← hpheq, ← hpleq, h ph hph pl hpl]
      exact isclose_self _
    simp only [normalizeScores, hiso, if_true]

/-- Helper: a non-close score set has a positive min-max span. -/
theorem span_pos_of_not_isclose {scores : List (ℕ × ℚ)} (hne : scores ≠ [])
    (hiso : isclose (pyMax (scores.map Prod.snd))
      (pyMin (scores.map Prod.snd)) = false) :
    0 < pyMax (scores.map Prod.snd) - pyMin (scores.map Prod.snd) := by
  have hvne : scores.map Prod.snd ≠ [] := by
    cases scores with
    | nil => exact absurd rfl hne
    | cons q l => simp
  have hlohi := pyMin_le hvne _ (pyMax_mem hvne)
  have hne2 := isclose_false_ne hiso
  rcases lt_or_eq_of_le hlohi with h | h
  · linarith
  · exact absurd h.symm hne2

/-- Helper: outside the `isclose` guard, `_normalize` rescales scores by a
strictly monotone map (so it preserves their relative order). -/
theorem normalizeScores_spread {scores : List (ℕ × ℚ)}
    (hiso : isclose (pyMax (scores.map Prod.snd))
      (pyMin (scores.map Prod.snd)) = false) :
    ∃ g : ℚ → ℚ, StrictMono g ∧
      normalizeScores scores = scores.map (fun p => (p.1, g p.2)) := by
  cases scores with
  | nil =>
    rw [show pyMax (([] : List (ℕ × ℚ)).map Prod.snd) = 0 from rfl,
      show pyMin (([] : List (ℕ × ℚ)).map Prod.snd) = 0 from rfl,
      isclose_self] at hiso
    exact absurd hiso (by simp)
  | cons q0 l =>
    have hspan : 0 < pyMax (((q0 :: l) : List (ℕ × ℚ)).map Prod.snd) -
        pyMin (((q0 :: l) : List (ℕ × ℚ)).map Prod.snd) :=
      span_pos_of_not_isclose (by simp) hiso
    refine ⟨fun s => (s - pyMin (((q0 :: l) : List (ℕ × ℚ)).map Prod.snd)) /
      (pyMax (((q0 :: l) : List (ℕ × ℚ)).map Prod.snd) -
        pyMin (((q0 :: l) : List (ℕ × ℚ)).map Prod.snd)), ?_, ?_⟩
    · intro s1 s2 hs
      exact (div_lt_div_iff_of_pos_right hspan).mpr (by linarith)
    · simp only [normalizeScores, hiso]
      rfl

/-- Helper: the index sequence of the sorted fused records permutes the
corpus index range. -/
theorem sortRecords_fst_perm (F B V : ℕ → ℚ) (n : ℕ) :
    ((sortFused ((List.range n).map (fun i => (i, F i, B i, V i)))).map
      Prod.fst).Perm (List.range n) := by
  have h1 := (sortFused_perm ((List.range n).map
    (fun i => (i, F i, B i, V i)))).map Prod.fst
  rw [List.map_map,
    show (Prod.fst ∘ fun i => ((i:ℕ), F i, B i, V i)) = id from rfl,
    List.map_id] at h1
  exact h1

/-- Helper: the index sequence of the sorted fused records is ordered by
the induced per-index key order. -/
theorem sortRecords_fst_pairwise (F B V : ℕ → ℚ) (n : ℕ) :
    ((sortFused ((List.range n).map (fun i => (i, F i, B i, V i)))).map
      Prod.fst).Pairwise (keyOrder F B) := by
  rw [List.pairwise_map]
  refine (sortFused_pairwise _).imp_of_mem ?_
  intro x y hx hy hxy
  have hx2 := ((sortFused_perm _).mem_iff).mp hx
  obtain ⟨i, hi, rfl⟩ := List.mem_map.mp hx2
  have hy2 := ((sortFused_perm _).mem_iff).mp hy
  obtain ⟨j, hj, rfl⟩ := List.mem_map.mp hy2
  rw [fusedGe_eq_true_iff] at hxy
  exact hxy

/-- Helper: the BM25-only comparator decides the per-index key order with
both keys equal to the raw BM25 score. -/
theorem bmComp_eq_true_iff (bm : ℕ → ℚ) (i j : ℕ) :
    (decide (bm j < bm i ∨ (bm j = bm i ∧ i ≤ j)) : Bool) = true ↔
      keyOrder bm bm i j := by
  rw [decide_eq_true_eq]
  unfold keyOrder lexGe
  constructor
  · rintro (h | ⟨h1, h2⟩)
    · exact Or.inl h
    · exact Or.inr ⟨h1, Or.inr ⟨h1, h2⟩⟩
  · rintro (h | ⟨h1, h2 | ⟨h2, h3⟩⟩)
    · exact Or.inl h
    · exact Or.inl h2
    · exact Or.inr ⟨h1, h3⟩

/-- Helper: the BM25-only comparator is transitive. -/
theorem bmComp_trans (bm : ℕ → ℚ) (a b c : ℕ)
    (h1 : decide (bm b < bm a ∨ (bm b = bm a ∧ a ≤ b)) = true)
    (h2 : decide (bm c < bm b ∨ (bm c = bm b ∧ b ≤ c)) = true) :
    decide (bm c < bm a ∨ (bm c = bm a ∧ a ≤ c)) = true := by
  rw [bmComp_eq_true_iff] at h1 h2 ⊢
  exact lexGe_trans h1 h2

/-- Helper: the BM25-only comparator is total. -/
theorem bmComp_total (bm : ℕ → ℚ) (a b : ℕ) :
    (decide (bm b < bm a ∨ (bm b = bm a ∧ a ≤ b)) ||
     decide (bm a < bm b ∨ (bm a = bm b ∧ b ≤ a))) = true := by
  rw [Bool.or_eq_true, bmComp_eq_true_iff, bmComp_eq_true_iff]
  exact lexGe_total (bm a) (bm b) (bm a) (bm b) a b

/-- Helper: the pure-BM25 ranking permutes the corpus index range. -/
theorem pureBM25Order_perm (bm : ℕ → ℚ) (n : ℕ) :
    (pureBM25Order bm n).Perm (List.range n) :=
  List.mergeSort_perm _ _

/-- Helper: the pure-BM25 ranking is ordered by its key order. -/
theorem pureBM25Order_pairwise (bm : ℕ → ℚ) (n : ℕ) :
    (pureBM25Order bm n).Pairwise (keyOrder bm bm) := by
  have h := @List.sorted_mergeSort ℕ
    (fun i j => decide (bm j < bm i ∨ (bm j = bm i ∧ i ≤ j)))
    (bmComp_trans bm) (bmComp_total bm) (List.range n)
  exact h.imp (fun hab => (bmComp_eq_true_iff bm _ _).mp hab)

/-- Helper: if the fused per-index key order implies the BM25 key order on
the corpus range, the two rankings coincide (both are sorted permutations
of the range under the antisymmetric BM25 key order). -/
theorem fusion_vs_bm25_general (F B V bm : ℕ → ℚ) (n : ℕ)
    (himp : ∀ i < n, ∀ j < n, keyOrder F B i j → keyOrder bm bm i j) :
    ((sortFused ((List.range n).map (fun i => (i, F i, B i, V i)))).map
      Prod.fst) = pureBM25Order bm n := by
  haveI : IsAntisymm ℕ (keyOrder bm bm) :=
    ⟨fun a b h1 h2 => lexGe_antisymm h1 h2⟩
  refine List.eq_of_perm_of_sorted
    ((sortRecords_fst_perm F B V n).trans (pureBM25Order_perm bm n).symm)
    ((sortRecords_fst_pairwise F B V n).imp_of_mem ?_)
    (pureBM25Order_pairwise bm n)
  intro i j hi hj hrel
  have hi2 := List.mem_range.mp ((sortRecords_fst_perm F B V n).mem_iff.mp hi)
  have hj2 := List.mem_range.mp ((sortRecords_fst_perm F B V n).mem_iff.mp hj)
  exact himp i hi2 j hj2 hrel

/-- C6 (amended): when the query embedding fails, `embed_query` substitutes
a zero vector, every cosine score is exactly `0.0`, retrieval does not
abort, and — provided the BM25 score set over the corpus is either fully
tied or not `math.isclose`-degenerate (max not within relative tolerance
`1e-9` of min) — the resulting rank order equals the pure-BM25 rank order
(raw BM25 score descending, index-ascending ties) over the same corpus. -/
theorem C6_embed_failure_lexical_order (alpha : ℚ) (bm : ℕ → ℚ) (n : ℕ)
    (hnd : (∀ i < n, ∀ j < n, bm i = bm j) ∨
      isclose (pyMax ((List.range n).map bm))
        (pyMin ((List.range n).map bm)) = false) :
    fusionOrder alpha bm (fun _ => (0:ℚ)) n = pureBM25Order bm n := by
  have hmapsnd : (enumScores n bm).map Prod.snd = (List.range n).map bm := by
    rw [enumScores, List.map_map]
    rfl
  have hV : ∀ t, lookupD (normalizeScores
      (enumScores n (fun _ => (0:ℚ)))) t = 0 := by
    intro t
    rw [normalizeScores_allEq (by
      intro p hp q hq
      obtain ⟨i2, -, rfl⟩ := List.mem_map.mp hp
      obtain ⟨j2, -, rfl⟩ := List.mem_map.mp hq
      rfl)]
    exact lookupD_const_zero _ t
  have hunfold : fusionOrder alpha bm (fun _ => (0:ℚ)) n =
      (sortFused ((List.range n).map (fun i =>
        (i, clampAlpha alpha *
            lookupD (normalizeScores (enumScores n (fun _ => (0:ℚ)))) i +
          (1 - clampAlpha alpha) *
            lookupD (normalizeScores (enumScores n bm)) i,
         lookupD (normalizeScores (enumScores n bm)) i,
         lookupD (normalizeScores (enumScores n (fun _ => (0:ℚ)))) i)))).map
        Prod.fst := rfl
  rw [hunfold]
  apply fusion_vs_bm25_general
  intro i hi j hj hrel
  rcases hnd with hall | hiso
  · have hB : ∀ t, lookupD (normalizeScores (enumScores n bm)) t = 0 := by
      intro t
      rw [normalizeScores_allEq (by
        intro p hp q hq
        obtain ⟨i2, hi2, rfl⟩ := List.mem_map.mp hp
        obtain ⟨j2, hj2, rfl⟩ := List.mem_map.mp hq
        exact hall i2 (List.mem_range.mp hi2) j2 (List.mem_range.mp hj2))]
      exact lookupD_const_zero _ t
    simp only [keyOrder, lexGe] at hrel
    rw [hV i, hV j, hB i, hB j] at hrel
    simp only [mul_zero, zero_add, add_zero] at hrel
    simp only [lt_irrefl, false_or, true_and, eq_self_iff_true] at hrel
    simp only [keyOrder, lexGe]
    exact Or.inr ⟨hall j hj i hi, Or.inr ⟨hall j hj i hi, hrel⟩⟩
  · have hiso2 : isclose (pyMax ((enumScores n bm).map Prod.snd))
        (pyMin ((enumScores n bm).map Prod.snd)) = false := by
      rw [hmapsnd]
      exact hiso
    obtain ⟨g, hg, hBeq⟩ := normalizeScores_spread hiso2
    have hB : ∀ t, t ∈ List.range n →
        lookupD (normalizeScores (enumScores n bm)) t = g (bm t) := by
      intro t ht
      rw [hBeq, show (enumScores n bm).map (fun p => (p.1, g p.2)) =
        (List.range n).map (fun j => (j, g (bm j))) from by
          rw [enumScores, List.map_map]
          rfl]
      exact lookupD_map_of_mem _ t _ ht
    have ha0 : 0 ≤ clampAlpha alpha := le_max_left 0 _
    have ha1 : clampAlpha alpha ≤ 1 :=
      max_le (by norm_num) (min_le_left 1 alpha)
    simp only [keyOrder, lexGe] at hrel
    rw [hV i, hV j, hB i (List.mem_range.mpr hi),
      hB j (List.mem_range.mpr hj)] at hrel
    simp only [mul_zero, zero_add] at hrel
    simp only [keyOrder, lexGe]
    rcases hrel with h1 | ⟨-, h2 | ⟨h2, h3⟩⟩
    · rcases lt_or_eq_of_le ha1 with ha1' | ha1'
      · have hpos : 0 < 1 - clampAlpha alpha := by linarith
        have hlt := (mul_lt_mul_left hpos).mp h1
        exact Or.inl (hg.lt_iff_lt.mp hlt)
      · rw [ha1'] at h1
        norm_num at h1
    · exact Or.inl (hg.lt_iff_lt.mp h2)
    · exact Or.inr ⟨hg.injective h2, Or.inr ⟨hg.injective h2, h3⟩⟩

/-- Helper: `_normalize` collapses the near-tied raw scores `{1, 1+1e-10}`
to all-zero normalized scores. -/
theorem nearTie_normalize :
    normalizeScores [(0, 1), (1, 1 + 1/10^10)] = [(0, 0), (1, 0)] := by
  have hmap : ([((0:ℕ), (1:ℚ)), (1, 1 + 1/10^10)]).map Prod.snd =
      [(1 : ℚ), 1 + 1/10^10] := rfl
  have hiso : isclose (pyMax [(1 : ℚ), 1 + 1/10^10])
      (pyMin [(1 : ℚ), 1 + 1/10^10]) = true := by
    rw [nearTie_pyMin, nearTie_pyMax]
    exact nearTie_isclose
  simp only [normalizeScores, hmap, hiso, if_true, List.map_cons,
    List.map_nil]

/-- Helper: normalized vector scores of an all-zero score set are `0` at
every index. -/
theorem lookupD_vecN_zero (n t : ℕ) :
    lookupD (normalizeScores (enumScores n (fun _ => (0:ℚ)))) t = 0 := by
  rw [normalizeScores_allEq (by
    intro p hp q hq
    obtain ⟨i2, -, rfl⟩ := List.mem_map.mp hp
    obtain ⟨j2, -, rfl⟩ := List.mem_map.mp hq
    rfl)]
  exact lookupD_const_zero _ t

/-- C6 counterexample: two chunks whose raw BM25 scores are `1` and
`1 + 1e-10` (within `math.isclose` relative tolerance `1e-9`, but NOT
equal). With a failed embedding (all vector scores `0`), min-max
normalization collapses both lexical scores to `0`, so the fused ranking
returns index order `[0, 1]`, while the pure-BM25 rank order is `[1, 0]`:
the rank orders differ. -/
theorem C6_counterexample :
    fusionOrder (13/20) (fun i => if i = 0 then (1:ℚ) else 1 + 1/10^10)
      (fun _ => (0:ℚ)) 2 = [0, 1] ∧
    pureBM25Order (fun i => if i = 0 then (1:ℚ) else 1 + 1/10^10) 2 =
      [1, 0] ∧
    ([0, 1] : List ℕ) ≠ [1, 0] := by
  have hbmN : normalizeScores (enumScores 2
      (fun i => if i = 0 then (1:ℚ) else 1 + 1/10^10)) = [(0, 0), (1, 0)] := by
    rw [show enumScores 2 (fun i => if i = 0 then (1:ℚ) else 1 + 1/10^10) =
      [(0, 1), (1, 1 + 1/10^10)] from rfl]
    exact nearTie_normalize
  have hB : ∀ t, lookupD [((0:ℕ), (0:ℚ)), (1, 0)] t = 0 := by
    intro t
    rw [show [((0:ℕ), (0:ℚ)), (1, 0)] =
      ([((0:ℕ), (1:ℚ)), (1, 1 + 1/10^10)]).map (fun p => (p.1, 0)) from rfl]
    exact lookupD_const_zero _ t
  have hunfold : fusionOrder (13/20)
      (fun i => if i = 0 then (1:ℚ) else 1 + 1/10^10) (fun _ => (0:ℚ)) 2 =
      (sortFused ((List.range 2).map (fun i =>
        (i, clampAlpha (13/20) *
            lookupD (normalizeScores (enumScores 2 (fun _ => (0:ℚ)))) i +
          (1 - clampAlpha (13/20)) *
            lookupD (normalizeScores (enumScores 2
              (fun i => if i = 0 then (1:ℚ) else 1 + 1/10^10))) i,
         lookupD (normalizeScores (enumScores 2
           (fun i => if i = 0 then (1:ℚ) else 1 + 1/10^10))) i,
         lookupD (normalizeScores (enumScores 2 (fun _ => (0:ℚ)))) i)))).map
        Prod.fst := rfl
  have hL : fusionOrder (13/20)
      (fun i => if i = 0 then (1:ℚ) else 1 + 1/10^10) (fun _ => (0:ℚ)) 2 =
      [0, 1] := by
    rw [hunfold]
    rcases perm_two (sortRecords_fst_perm _ _ _ 2) with h | h
    · exact h
    · exfalso
      have hpw := sortRecords_fst_pairwise
        (fun i => clampAlpha (13/20) *
            lookupD (normalizeScores (enumScores 2 (fun _ => (0:ℚ)))) i +
          (1 - clampAlpha (13/20)) *
            lookupD (normalizeScores (enumScores 2
              (fun i => if i = 0 then (1:ℚ) else 1 + 1/10^10))) i)
        (fun i => lookupD (normalizeScores (enumScores 2
          (fun i => if i = 0 then (1:ℚ) else 1 + 1/10^10))) i)
        (fun i => lookupD (normalizeScores (enumScores 2
          (fun _ => (0:ℚ)))) i) 2
      rw [h] at hpw
      have hrel := (List.pairwise_cons.mp hpw).1 0 (List.mem_singleton.mpr rfl)
      simp only [keyOrder, lexGe] at hrel
      rw [hbmN] at hrel
      rw [lookupD_vecN_zero, lookupD_vecN_zero, hB 0, hB 1] at hrel
      simp only [mul_zero, zero_add, add_zero] at hrel
      rcases hrel with h2 | ⟨-, h2 | ⟨-, h2⟩⟩
      · exact absurd h2 (lt_irrefl 0)
      · exact absurd h2 (lt_irrefl 0)
      · omega
  have hR : pureBM25Order
      (fun i => if i = 0 then (1:ℚ) else 1 + 1/10^10) 2 = [1, 0] := by
    rcases perm_two (pureBM25Order_perm
        (fun i => if i = 0 then (1:ℚ) else 1 + 1/10^10) 2) with h | h
    · exfalso
      have hpw := pureBM25Order_pairwise
        (fun i => if i = 0 then (1:ℚ) else 1 + 1/10^10) 2
      rw [h] at hpw
      have hrel := (List.pairwise_cons.mp hpw).1 1 (List.mem_singleton.mpr rfl)
      simp only [keyOrder, lexGe] at hrel
      rcases hrel with h2 | ⟨h2, -⟩
      · norm_num at h2
      · norm_num at h2
    · exact h
  exact ⟨hL, hR, by decide⟩

/-- C6 witness: the amended statement instantiated at a two-chunk corpus
with clearly-spread BM25 scores `{0, 1}`. -/
theorem C6_witness :
    isclose (pyMax ((List.range 2).map (fun i => (i : ℚ))))
      (pyMin ((List.range 2).map (fun i => (i : ℚ)))) = false ∧
    fusionOrder (13/20) (fun i => (i : ℚ)) (fun _ => (0:ℚ)) 2 =
      pureBM25Order (fun i => (i : ℚ)) 2 := by
  have hiso : isclose (pyMax ((List.range 2).map (fun i => (i : ℚ))))
      (pyMin ((List.range 2).map (fun i => (i : ℚ)))) = false := by
    rw [show (List.range 2).map (fun i => (i : ℚ)) = [(0 : ℚ), 1] from by
      norm_num [List.range_succ]]
    simp only [pyMax, pyMin, List.foldl_cons, List.foldl_nil]
    rw [max_eq_right (by norm_num : (0:ℚ) ≤ 1),
      min_eq_left (by norm_num : (0:ℚ) ≤ 1)]
    simp only [isclose, decide_eq_false_iff_not]
    intro habs
    rw [abs_of_nonneg (by norm_num : (0:ℚ) ≤ 1 - 0)] at habs
    have hmax : max |(1:ℚ)| |(0:ℚ)| = 1 := by
      rw [abs_of_nonneg (by norm_num : (0:ℚ) ≤ 1), abs_zero,
        max_eq_left (by norm_num)]
    rw [hmax] at habs
    norm_num at habs
  exact ⟨hiso,
    C6_embed_failure_lexical_order (13/20) (fun i => (i : ℚ)) 2 (Or.inr hiso)⟩

end DutySaving
